import Mathlib

/-!
# ormBuf: shallow embedding of the serialization engine

Embedding of `src/ormBuf.h` (the `OrmBuf<T>` engine) and of the two
adapters of `src/test.h` (`OrmBufCompany`, `OrmBufDat`).

Conventions of the embedding
* a byte is a `Fin 256`; `std::vector<uint8_t>` and `std::string` are
  `List Byte`;
* a value of a numeric type of byte size `w` is the natural number whose
  little-endian base-256 digits are its object representation: the target
  is little-endian, and `float`/`double` are carried by their bit pattern;
* `uint8_t *m_inBuf` is a `Ptr`: the memory seen from `_srcBuf.data()`
  together with an offset into it.  The engine never learns the length of
  the source vector, so memory is a total function; what lies behind the
  vector is a parameter of `decode`;
* `sizeof(size_t)` is a parameter `szw` (8 on LP64 targets);
* the engine state carries one ghost field, `reads`, the log of the
  `(offset, length)` ranges dereferenced through `m_inBuf`.
-/

set_option autoImplicit false
set_option maxRecDepth 100000

namespace nsOrmBuf

/-- One octet. -/
abbrev Byte := Fin 256

/-- Object representation of a numeric value: the `w` low little-endian
base-256 digits of `v`. -/
def le_bytes : Nat → Nat → List Byte
  | 0, _ => []
  | w + 1, v => Fin.ofNat v :: le_bytes w (v / 256)

/-- Value of an object representation (little-endian). -/
def le_val : List Byte → Nat
  | [] => 0
  | b :: bs => b.val + 256 * le_val bs

/-- Model of `uint8_t *`: the memory as seen from the start of the source
buffer, and the current offset. -/
structure Ptr where
  mem : Nat → Byte
  off : Nat

/-- Pointer arithmetic `p + n`. -/
def Ptr.add (p : Ptr) (n : Nat) : Ptr := { p with off := p.off + n }

/-- The `n` bytes found at `p`, `p + 1`, ... -/
def Ptr.load (p : Ptr) (n : Nat) : List Byte :=
  (List.range n).map (fun i => p.mem (p.off + i))

/-- Model of `nullptr` (never dereferenced by the engine in write mode). -/
def Ptr.null : Ptr := { mem := fun _ => 0, off := 0 }

/-- Data members of `OrmBuf<T>` (`m_bEnc`, `m_inBuf`, `m_distVec`) and the
ghost read log. -/
structure OrmBuf where
  m_bEnc : Bool
  m_inBuf : Ptr
  m_distVec : List Byte
  reads : List (Nat × Nat)

/-- A newly constructed engine: `m_bEnc = false`, `m_inBuf = nullptr`,
`m_distVec` empty. -/
def OrmBuf.fresh : OrmBuf :=
  { m_bEnc := false, m_inBuf := Ptr.null, m_distVec := [], reads := [] }

/-- Template `do_encode_num<ET>(const ET &)` for a numeric `ET` with
`sizeof(ET) = w`: `einfo.l = sizeof(_value)` (a `uint32_t`), then the four
bytes of `einfo`, then `einfo.l` bytes starting at `&_value`. -/
def do_encode_num (w : Nat) (o : OrmBuf) (_value : Nat) : OrmBuf :=
  let einfo_l := w % 2 ^ 32
  let outvec := o.m_distVec
  let outvec := outvec ++ le_bytes 4 einfo_l
  let outvec := outvec ++ (le_bytes w _value).take einfo_l
  { o with m_distVec := outvec }

/-- Overload `do_encode_num(const std::string &)`: `einfo.l = _value.size()`
narrowed to `uint32_t`, the four bytes of `einfo`, then `einfo.l` bytes
starting at `_value.data()`. -/
def do_encode_num_string (o : OrmBuf) (_value : List Byte) : OrmBuf :=
  let einfo_l := _value.length % 2 ^ 32
  let outvec := o.m_distVec
  let outvec := outvec ++ le_bytes 4 einfo_l
  let outvec := outvec ++ _value.take einfo_l
  { o with m_distVec := outvec }

/-- Template `do_decode_num<ET>(ET &)` for a numeric `ET` with
`sizeof(ET) = w`: the value is the `w` bytes behind the length field, the
cursor then moves on by the stored length.  The ghost log lists the two
dereferenced ranges in address order. -/
def do_decode_num (w : Nat) (o : OrmBuf) : OrmBuf × Nat :=
  let inptr := o.m_inBuf
  let einfo := inptr
  let inptr := inptr.add 4
  let _value := le_val (inptr.load w)
  let einfo_l := le_val (einfo.load 4)
  ({ o with m_inBuf := inptr.add einfo_l,
            reads := o.reads ++ [(einfo.off, 4), (inptr.off, w)] }, _value)

/-- Overload `do_decode_num(std::string &)`: assigns the `einfo->l` bytes
behind the length field, the cursor moves on by the same length. -/
def do_decode_num_string (o : OrmBuf) : OrmBuf × List Byte :=
  let inptr := o.m_inBuf
  let einfo := inptr
  let inptr := inptr.add 4
  let einfo_l := le_val (einfo.load 4)
  let _value := inptr.load einfo_l
  ({ o with m_inBuf := inptr.add einfo_l,
            reads := o.reads ++ [(einfo.off, 4), (inptr.off, einfo_l)] }, _value)

/-- Template `reg_ele<ET>` at a numeric `ET` of byte size `w`; returns the
engine and the (possibly overwritten) value. -/
def reg_ele (w : Nat) (o : OrmBuf) (_value : Nat) : OrmBuf × Nat :=
  if o.m_bEnc then (do_encode_num w o _value, _value) else do_decode_num w o

/-- Template `reg_ele<std::string>`. -/
def reg_ele_string (o : OrmBuf) (_value : List Byte) : OrmBuf × List Byte :=
  if o.m_bEnc then (do_encode_num_string o _value, _value) else do_decode_num_string o

/-- The range-based loop `for (auto &_ele : _value) regFunc(arrRegCtx, _ele)`. -/
def for_each {E : Type} (regFunc : OrmBuf → E → OrmBuf × E) :
    OrmBuf → List E → OrmBuf × List E
  | o, [] => (o, [])
  | o, _ele :: rest =>
    let r := regFunc o _ele
    let rs := for_each regFunc r.1 rest
    (rs.1, r.2 :: rs.2)

/-- Template `reg_arr<ET, F>`.  `szw` is `sizeof(size_t)`, `ele_tmp` the
default-constructed `ElementType ele_tmp;`.  `sizeArr` starts as
`_value.size()`, goes through `reg_ele`, and in read mode that many copies
of `ele_tmp` are pushed onto `_value` before the element loop.  Here the
`push_back` loop always completes; `reg_arr_alloc` is the same function with
the failure of `push_back` made explicit. -/
def reg_arr {E : Type} (szw : Nat) (ele_tmp : E) (regFunc : OrmBuf → E → OrmBuf × E)
    (o : OrmBuf) (_value : List E) : OrmBuf × List E :=
  let sizeArr := _value.length % 256 ^ szw
  let r := reg_ele szw o sizeArr
  let o := r.1
  let sizeArr := r.2
  let _value := if !o.m_bEnc then _value ++ List.replicate sizeArr ele_tmp else _value
  for_each regFunc o _value

/-- Result of `encode`: the returned flag, the engine afterwards, the value
(passed by mutable reference) and the caller's `_distBuf`. -/
structure EncodeResult (T : Type) where
  ret : Bool
  self : OrmBuf
  t : T
  distBuf : List Byte

/-- Result of `decode`: the returned flag, the engine afterwards and the
destination value. -/
structure DecodeResult (T : Type) where
  ret : Bool
  self : OrmBuf
  t : T

/-- Member `encode(T &_t, std::vector<uint8_t> &_distBuf)`; `init_buf` is the
pure virtual the adapter supplies. -/
def encode {T : Type} (init_buf : OrmBuf → T → Bool × OrmBuf × T)
    (o : OrmBuf) (_t : T) (_distBuf : List Byte) : EncodeResult T :=
  let o := { o with m_bEnc := true }
  let r := init_buf o _t
  let ret := r.1
  { ret := ret, self := r.2.1, t := r.2.2, distBuf := r.2.1.m_distVec }

/-- Memory seen from `_srcBuf.data()`: the vector's bytes, then whatever the
process holds behind them. -/
def mem_of (_srcBuf : List Byte) (beyond : Nat → Byte) : Nat → Byte :=
  fun i => if h : i < _srcBuf.length then _srcBuf.get ⟨i, h⟩ else beyond (i - _srcBuf.length)

/-- Member `decode(std::vector<uint8_t> &_srcBuf, T &_t)`.  `beyond` is
the memory behind the vector's storage; the ghost read log starts empty. -/
def decode {T : Type} (init_buf : OrmBuf → T → Bool × OrmBuf × T)
    (o : OrmBuf) (_srcBuf : List Byte) (beyond : Nat → Byte) (_t : T) : DecodeResult T :=
  let o := { o with m_bEnc := false }
  let o := { o with m_inBuf := { mem := mem_of _srcBuf beyond, off := 0 }, reads := [] }
  let r := init_buf o _t
  { ret := r.1, self := r.2.1, t := r.2.2 }

end nsOrmBuf

open nsOrmBuf

/-- Bytes of an ASCII string literal: one byte per character, its code.  It
is applied to the plain-ASCII literals of test.cpp only (for a character
outside ASCII a `std::string` would hold several UTF-8 bytes, which this
function does not produce). -/
def str (s : String) : List Byte := s.toList.map (fun c => Fin.ofNat c.toNat)

/-- Data members of `struct Employee` of test.h: `uint32_t id`,
`std::string name`, `uint8_t age`, `float salary` (its bit pattern). -/
structure Employee where
  id : Nat
  name : List Byte
  age : Nat
  salary : Nat
deriving DecidableEq, Repr

/-- Data members of `struct Department` of test.h. -/
structure Department where
  id : Nat
  name : List Byte
  employees : List Employee
deriving DecidableEq, Repr

/-- Data members of `struct Company` of test.h (`std::list<Department>`). -/
structure Company where
  name : List Byte
  departments : List Department
deriving DecidableEq, Repr

/-- The object `ElementType ele_tmp;` at `ElementType = Employee`: the string
is empty; the scalar members have no initializer, the embedding fixes their
indeterminate content to 0 (each is overwritten by the read that follows). -/
def Employee.ele_tmp : Employee := { id := 0, name := [], age := 0, salary := 0 }

/-- The object `ElementType ele_tmp;` at `ElementType = Department`: empty
string, empty vector, `id` fixed to 0 as for `Employee.ele_tmp`. -/
def Department.ele_tmp : Department := { id := 0, name := [], employees := [] }

/-- A default-constructed `Company` (`Company decCompany;`). -/
def Company.default : Company := { name := [], departments := [] }

/-- Inner lambda of `OrmBufCompany::init_buf`, registering an `Employee`. -/
def OrmBufCompany.reg_employee (arrReg : OrmBuf) (employee : Employee) : OrmBuf × Employee :=
  let r1 := reg_ele 4 arrReg employee.id
  let r2 := reg_ele_string r1.1 employee.name
  let r3 := reg_ele 1 r2.1 employee.age
  let r4 := reg_ele 4 r3.1 employee.salary
  (r4.1, { id := r1.2, name := r2.2, age := r3.2, salary := r4.2 })

/-- Outer lambda of `OrmBufCompany::init_buf`, registering a `Department`. -/
def OrmBufCompany.reg_department (szw : Nat) (arrReg : OrmBuf) (department : Department) :
    OrmBuf × Department :=
  let r1 := reg_ele 4 arrReg department.id
  let r2 := reg_ele_string r1.1 department.name
  let r3 := reg_arr szw Employee.ele_tmp OrmBufCompany.reg_employee r2.1 department.employees
  (r3.1, { id := r1.2, name := r2.2, employees := r3.2 })

/-- The override `OrmBufCompany::init_buf`; always returns `true`. -/
def OrmBufCompany.init_buf (szw : Nat) (o : OrmBuf) (company : Company) :
    Bool × OrmBuf × Company :=
  let r1 := reg_ele_string o company.name
  let r2 := reg_arr szw Department.ele_tmp (OrmBufCompany.reg_department szw) r1.1
    company.departments
  (true, r2.1, { name := r1.2, departments := r2.2 })

/-- The value built by `make_test_data_company` of test.cpp (salaries are the
`float` bit patterns of 99999.1 and 99999.2). -/
def make_test_data_company : Company :=
  { name := str "nb_company",
    departments :=
      [{ id := 1, name := str "nb_department",
         employees :=
           [{ id := 1007, name := str "nb_employee", age := 35, salary := 1203982221 },
            { id := 1008, name := str "nb_employee2", age := 36, salary := 1203982234 }] }] }

/-- Data members of `class DatEleEleEle` of test.h. -/
structure DatEleEleEle where
  u64 : Nat
  s : List Byte
deriving DecidableEq, Repr

/-- Data members of `class DatEleEle` of test.h. -/
structure DatEleEle where
  u32 : Nat
  s : List Byte
  e2_arr : List DatEleEleEle
deriving DecidableEq, Repr

/-- Data members of `class DatEle` of test.h. -/
structure DatEle where
  u16 : Nat
  s : List Byte
  arr : List DatEleEle
deriving DecidableEq, Repr

/-- Data members of `class Dat` of test.h (`f` and `d` are the bit patterns
of the `float` and the `double`). -/
structure Dat where
  u16 : Nat
  u32 : Nat
  u8 : Nat
  u64 : Nat
  f : Nat
  d : Nat
  s : List Byte
  arr : List DatEle
  arr2 : List DatEleEle
deriving DecidableEq, Repr

/-- Default-constructed `DatEleEleEle` (member initializers `0`, `""`). -/
def DatEleEleEle.ele_tmp : DatEleEleEle := { u64 := 0, s := [] }

/-- Default-constructed `DatEleEle`. -/
def DatEleEle.ele_tmp : DatEleEle := { u32 := 0, s := [], e2_arr := [] }

/-- Default-constructed `DatEle`. -/
def DatEle.ele_tmp : DatEle := { u16 := 0, s := [], arr := [] }

/-- Default-constructed `Dat` (`Dat decDat;`). -/
def Dat.default : Dat :=
  { u16 := 0, u32 := 0, u8 := 0, u64 := 0, f := 0, d := 0, s := [], arr := [], arr2 := [] }

/-- Innermost lambda of `OrmBufDat::init_buf` (`arrReg3`). -/
def OrmBufDat.reg_e3 (arrReg3 : OrmBuf) (ele : DatEleEleEle) : OrmBuf × DatEleEleEle :=
  let r1 := reg_ele 8 arrReg3 ele.u64
  let r2 := reg_ele_string r1.1 ele.s
  (r2.1, { u64 := r1.2, s := r2.2 })

/-- Lambda of `OrmBufDat::init_buf` registering a `DatEleEle` (`arrReg2`);
the source has two textually identical copies, for `ele.arr` and `dat.arr2`. -/
def OrmBufDat.reg_e2 (szw : Nat) (arrReg2 : OrmBuf) (ele : DatEleEle) : OrmBuf × DatEleEle :=
  let r1 := reg_ele 4 arrReg2 ele.u32
  let r2 := reg_ele_string r1.1 ele.s
  let r3 := reg_arr szw DatEleEleEle.ele_tmp OrmBufDat.reg_e3 r2.1 ele.e2_arr
  (r3.1, { u32 := r1.2, s := r2.2, e2_arr := r3.2 })

/-- Lambda of `OrmBufDat::init_buf` registering a `DatEle` (`arrReg`). -/
def OrmBufDat.reg_e1 (szw : Nat) (arrReg : OrmBuf) (ele : DatEle) : OrmBuf × DatEle :=
  let r1 := reg_ele 2 arrReg ele.u16
  let r2 := reg_ele_string r1.1 ele.s
  let r3 := reg_arr szw DatEleEle.ele_tmp (OrmBufDat.reg_e2 szw) r2.1 ele.arr
  (r3.1, { u16 := r1.2, s := r2.2, arr := r3.2 })

/-- The override `OrmBufDat::init_buf`; always returns `true`. -/
def OrmBufDat.init_buf (szw : Nat) (o : OrmBuf) (dat : Dat) : Bool × OrmBuf × Dat :=
  let r1 := reg_ele 2 o dat.u16
  let r2 := reg_ele 4 r1.1 dat.u32
  let r3 := reg_ele 1 r2.1 dat.u8
  let r4 := reg_ele 4 r3.1 dat.f
  let r5 := reg_ele 8 r4.1 dat.d
  let r6 := reg_ele 8 r5.1 dat.u64
  let r7 := reg_ele_string r6.1 dat.s
  let r8 := reg_arr szw DatEle.ele_tmp (OrmBufDat.reg_e1 szw) r7.1 dat.arr
  let r9 := reg_arr szw DatEleEle.ele_tmp (OrmBufDat.reg_e2 szw) r8.1 dat.arr2
  (true, r9.1,
    { u16 := r1.2, u32 := r2.2, u8 := r3.2, u64 := r6.2, f := r4.2, d := r5.2, s := r7.2,
      arr := r8.2, arr2 := r9.2 })

/-- The value built by `make_test_data` of test.cpp (`f`, `d` are the bit
patterns of `(float)16.16` and `16.18`). -/
def make_test_data : Dat :=
  { u16 := 101, u32 := 102, u8 := 3, u64 := 104,
    f := 1098991534, d := 4625247482805307310,
    s := str "str2_in_Dat",
    arr :=
      [{ u16 := 201, s := str "DatEle.s in Dat.arr[1]",
         arr := [{ u32 := 3, s := str "DatEleEle.s in DatEle.arr[0]",
                   e2_arr := [{ u64 := 301, s := str "DatEleEleEle.s in DatEleEle.arr[0]" }] }] },
       { u16 := 201, s := str "DatEle.s in Dat.arr[1]",
         arr := [{ u32 := 401, s := str "DatEleEle.s in DatEle.arr[0]",
                   e2_arr := [{ u64 := 301, s := str "DatEleEleEle.s in DatEleEle.arr[0]" }] }] }],
    arr2 :=
      [{ u32 := 401, s := str "DatEleEle.s in Dat.arr2[0]",
         e2_arr := [{ u64 := 301, s := str "DatEleEleEle.s in DatEleEle.arr[0]" }] }] }

/-! ## Specification-side vocabulary -/

namespace nsOrmBuf

/-- The memory at `p` holds the bytes `bs`. -/
def Holds (p : Ptr) (bs : List Byte) : Prop := p.load bs.length = bs

instance (p : Ptr) (bs : List Byte) : Decidable (Holds p bs) := by
  unfold Holds; infer_instance

/-- Bytes of the record of a numeric value of byte size `w`: the length
`sizeof` narrowed to 32 bits, then that many bytes of the object
representation. -/
def enc_num (w v : Nat) : List Byte :=
  le_bytes 4 (w % 2 ^ 32) ++ (le_bytes w v).take (w % 2 ^ 32)

/-- Bytes of the record of a text: its byte count narrowed to 32 bits, then
that many of its bytes. -/
def enc_str (s : List Byte) : List Byte :=
  le_bytes 4 (s.length % 2 ^ 32) ++ s.take (s.length % 2 ^ 32)

/-- Layout of a collection: the record of the count (a `size_t`), then the
encodings of the elements in order. -/
def enc_arr {E : Type} (szw : Nat) (enc : E → List Byte) (xs : List E) : List Byte :=
  enc_num szw xs.length ++ (xs.map enc).flatten

/-- The ranges of a read log are laid end to end from offset `a` to offset `b`. -/
def Tiles : List (Nat × Nat) → Nat → Nat → Prop
  | [], a, b => a = b
  | r :: rest, a, b => r.1 = a ∧ Tiles rest (a + r.2) b

/-- Every range of a read log that touches memory lies inside the first `n` bytes. -/
def InBounds (n : Nat) (log : List (Nat × Nat)) : Prop :=
  ∀ r ∈ log, r.2 = 0 ∨ r.1 + r.2 ≤ n

instance (n : Nat) (log : List (Nat × Nat)) : Decidable (InBounds n log) := by
  unfold InBounds; infer_instance

/-- The engine after `bs` was appended to `m_distVec`. -/
def OrmBuf.put (o : OrmBuf) (bs : List Byte) : OrmBuf :=
  { o with m_distVec := o.m_distVec ++ bs }

/-- In write mode `f` appends `enc x` to the output and changes nothing else. -/
def WritesAs {E : Type} (f : OrmBuf → E → OrmBuf × E) (enc : E → List Byte) : Prop :=
  ∀ o x, o.m_bEnc = true → f o x = (o.put (enc x), x)

/-- The engine after its cursor moved on by `n` bytes, with the ranges `rl`
added to the read log. -/
def OrmBuf.advance (o : OrmBuf) (n : Nat) (rl : List (Nat × Nat)) : OrmBuf :=
  { o with m_inBuf := o.m_inBuf.add n, reads := o.reads ++ rl }

/-- In read mode, on memory holding `enc x`, `f` applied to the
default-constructed element `d` produces `x`, moves the cursor over exactly
`enc x`, and its reads tile exactly that range. -/
def ReadsBack {E : Type} (f : OrmBuf → E → OrmBuf × E) (enc : E → List Byte)
    (ok : E → Prop) (d : E) : Prop :=
  ∀ o x, ok x → o.m_bEnc = false → Holds o.m_inBuf (enc x) →
    ∃ rl, Tiles rl o.m_inBuf.off (o.m_inBuf.off + (enc x).length) ∧
      f o d = (o.advance (enc x).length rl, x)

end nsOrmBuf

namespace nsOrmBuf

/-- Concatenation of Field Records `[uint32 length][length bytes]` with the
payloads `ps`. -/
def frame (ps : List (List Byte)) : List Byte :=
  (ps.map (fun p => le_bytes 4 p.length ++ p)).flatten

/-- The byte sequence `bs` splits completely into Field Records (each
payload shorter than 2^32 bytes, so that its length fits the 4-byte field). -/
def Framed (bs : List Byte) : Prop :=
  ∃ ps : List (List Byte), (∀ p ∈ ps, p.length < 2 ^ 32) ∧ bs = frame ps

end nsOrmBuf

namespace nsOrmBuf

/-- Two engines in read mode with the same cursor offset and read log whose
memories agree on the first `n` bytes. -/
def Sim (n : Nat) (s s' : OrmBuf) : Prop :=
  s.m_bEnc = false ∧ s'.m_bEnc = false ∧ s.m_inBuf.off = s'.m_inBuf.off ∧
    s.reads = s'.reads ∧ ∀ i < n, s.m_inBuf.mem i = s'.m_inBuf.mem i

/-- The registration function `f` only adds to the read log and, in read
mode, is determined by the bytes it reads: on two memories that agree on
the first `n` bytes, a run whose reads stay inside those bytes is matched
step for step by the other run. -/
def Loc {E : Type} (f : OrmBuf → E → OrmBuf × E) : Prop :=
  (∀ s a, ∀ r ∈ s.reads, r ∈ (f s a).1.reads) ∧
  (∀ n s s' a, Sim n s s' → InBounds n (f s a).1.reads →
    Sim n (f s a).1 (f s' a).1 ∧ (f s a).2 = (f s' a).2)

/-- Two registrations in sequence, on a pair of members. -/
def seq {A B : Type} (f : OrmBuf → A → OrmBuf × A) (g : OrmBuf → B → OrmBuf × B) :
    OrmBuf → A × B → OrmBuf × (A × B) :=
  fun s ab =>
    let r1 := f s ab.1
    let r2 := g r1.1 ab.2
    (r2.1, (r1.2, r2.2))

end nsOrmBuf

/-! ## Layout and well-formedness of the registered types -/

/-- Bytes `OrmBufCompany` writes for an `Employee`. -/
def enc_employee (e : Employee) : List Byte :=
  enc_num 4 e.id ++ (enc_str e.name ++ (enc_num 1 e.age ++ enc_num 4 e.salary))

/-- Bytes `OrmBufCompany` writes for a `Department`. -/
def enc_department (szw : Nat) (d : Department) : List Byte :=
  enc_num 4 d.id ++ (enc_str d.name ++ enc_arr szw enc_employee d.employees)

/-- Bytes `OrmBufCompany` writes for a `Company`. -/
def enc_company (szw : Nat) (c : Company) : List Byte :=
  enc_str c.name ++ enc_arr szw (enc_department szw) c.departments

/-- The members of an `Employee` are values of their C++ types and the text
is shorter than 2^32 bytes. -/
def Employee.wf (e : Employee) : Prop :=
  e.id < 2 ^ 32 ∧ e.name.length < 2 ^ 32 ∧ e.age < 2 ^ 8 ∧ e.salary < 2 ^ 32

instance (e : Employee) : Decidable e.wf := by
  unfold Employee.wf; infer_instance

/-- The members of a `Department` are values of their C++ types (the element
count fits `size_t`) and the text is shorter than 2^32 bytes. -/
def Department.wf (szw : Nat) (d : Department) : Prop :=
  d.id < 2 ^ 32 ∧ d.name.length < 2 ^ 32 ∧
    (d.employees.length < 256 ^ szw ∧ ∀ e ∈ d.employees, e.wf)

instance (szw : Nat) (d : Department) : Decidable (d.wf szw) := by
  unfold Department.wf; infer_instance

/-- The members of a `Company` are values of their C++ types (the element
count fits `size_t`) and the texts are shorter than 2^32 bytes. -/
def Company.wf (szw : Nat) (c : Company) : Prop :=
  c.name.length < 2 ^ 32 ∧
    (c.departments.length < 256 ^ szw ∧ ∀ d ∈ c.departments, d.wf szw)

instance (szw : Nat) (c : Company) : Decidable (c.wf szw) := by
  unfold Company.wf; infer_instance

/-- The numeric members of an `Employee` are values of their C++ types
(`uint32_t`, `uint8_t`, `float`); no bound on the text. -/
def Employee.typed (e : Employee) : Prop :=
  e.id < 2 ^ 32 ∧ e.age < 2 ^ 8 ∧ e.salary < 2 ^ 32

instance (e : Employee) : Decidable e.typed := by
  unfold Employee.typed; infer_instance

/-- The members of a `Department` are values of their C++ types (the element
count fits `size_t`); no bound on the texts. -/
def Department.typed (szw : Nat) (d : Department) : Prop :=
  d.id < 2 ^ 32 ∧ d.employees.length < 256 ^ szw ∧ ∀ e ∈ d.employees, e.typed

instance (szw : Nat) (d : Department) : Decidable (d.typed szw) := by
  unfold Department.typed; infer_instance

/-- The members of a `Company` are values of their C++ types (the element
count fits `size_t`); no bound on the texts. -/
def Company.typed (szw : Nat) (c : Company) : Prop :=
  c.departments.length < 256 ^ szw ∧ ∀ d ∈ c.departments, d.typed szw

instance (szw : Nat) (c : Company) : Decidable (c.typed szw) := by
  unfold Company.typed; infer_instance

/-- What is left of a text once its byte count is narrowed to `uint32_t`. -/
def narrow_text (s : List Byte) : List Byte := s.take (s.length % 2 ^ 32)

/-- An `Employee` with its text narrowed. -/
def Employee.narrow (e : Employee) : Employee := { e with name := narrow_text e.name }

/-- A `Department` with its texts narrowed. -/
def Department.narrow (d : Department) : Department :=
  { d with name := narrow_text d.name, employees := d.employees.map Employee.narrow }

/-- A `Company` with its texts narrowed. -/
def Company.narrow (c : Company) : Company :=
  { name := narrow_text c.name, departments := c.departments.map Department.narrow }

/-- Bytes `OrmBufDat` writes for a `DatEleEleEle`. -/
def enc_e3 (e : DatEleEleEle) : List Byte := enc_num 8 e.u64 ++ enc_str e.s

/-- Bytes `OrmBufDat` writes for a `DatEleEle`. -/
def enc_e2 (szw : Nat) (e : DatEleEle) : List Byte :=
  enc_num 4 e.u32 ++ (enc_str e.s ++ enc_arr szw enc_e3 e.e2_arr)

/-- Bytes `OrmBufDat` writes for a `DatEle`. -/
def enc_e1 (szw : Nat) (e : DatEle) : List Byte :=
  enc_num 2 e.u16 ++ (enc_str e.s ++ enc_arr szw (enc_e2 szw) e.arr)

/-- Bytes `OrmBufDat` writes for a `Dat`, in the order of `init_buf`. -/
def enc_dat (szw : Nat) (d : Dat) : List Byte :=
  enc_num 2 d.u16 ++ (enc_num 4 d.u32 ++ (enc_num 1 d.u8 ++ (enc_num 4 d.f ++
    (enc_num 8 d.d ++ (enc_num 8 d.u64 ++ (enc_str d.s ++
      (enc_arr szw (enc_e1 szw) d.arr ++ enc_arr szw (enc_e2 szw) d.arr2)))))))

/-- Members of a `DatEleEleEle` are values of their C++ types, text shorter
than 2^32 bytes. -/
def DatEleEleEle.wf (e : DatEleEleEle) : Prop := e.u64 < 2 ^ 64 ∧ e.s.length < 2 ^ 32

instance (e : DatEleEleEle) : Decidable e.wf := by
  unfold DatEleEleEle.wf; infer_instance

/-- Members of a `DatEleEle` are values of their C++ types, text shorter than
2^32 bytes, at every level below. -/
def DatEleEle.wf (szw : Nat) (e : DatEleEle) : Prop :=
  e.u32 < 2 ^ 32 ∧ e.s.length < 2 ^ 32 ∧ (e.e2_arr.length < 256 ^ szw ∧ ∀ x ∈ e.e2_arr, x.wf)

instance (szw : Nat) (e : DatEleEle) : Decidable (e.wf szw) := by
  unfold DatEleEle.wf; infer_instance

/-- Members of a `DatEle` are values of their C++ types, text shorter than
2^32 bytes, at every level below. -/
def DatEle.wf (szw : Nat) (e : DatEle) : Prop :=
  e.u16 < 2 ^ 16 ∧ e.s.length < 2 ^ 32 ∧ (e.arr.length < 256 ^ szw ∧ ∀ x ∈ e.arr, x.wf szw)

instance (szw : Nat) (e : DatEle) : Decidable (e.wf szw) := by
  unfold DatEle.wf; infer_instance

/-- Members of a `Dat` are values of their C++ types, texts shorter than 2^32
bytes, at every level below. -/
def Dat.wf (szw : Nat) (d : Dat) : Prop :=
  d.u16 < 2 ^ 16 ∧ d.u32 < 2 ^ 32 ∧ d.u8 < 2 ^ 8 ∧ d.f < 2 ^ 32 ∧ d.d < 2 ^ 64 ∧
    d.u64 < 2 ^ 64 ∧ d.s.length < 2 ^ 32 ∧
    (d.arr.length < 256 ^ szw ∧ ∀ x ∈ d.arr, x.wf szw) ∧
    (d.arr2.length < 256 ^ szw ∧ ∀ x ∈ d.arr2, x.wf szw)

instance (szw : Nat) (d : Dat) : Decidable (d.wf szw) := by
  unfold Dat.wf; infer_instance

/-- An adapter, not part of the repository, whose `init_buf` registers one
`uint32_t` field and then declines by returning `false`. -/
def declining_init_buf (o : OrmBuf) (t : Nat) : Bool × OrmBuf × Nat :=
  let r := reg_ele 4 o t
  (false, r.1, r.2)

namespace nsOrmBuf

/-- The sixteen digits `%x` prints, lowercase. -/
def hex_digits : List Char := "0123456789abcdef".toList

/-- One hexadecimal digit as `%x` prints it. -/
def hex_digit (n : Nat) : Char := hex_digits.getD n '0'

/-- Loop of `dump_hex`; `i` is `it - _vecIn.begin()`.  Each byte goes through
`sprintf(tmpBuf, "%02x ", *it)` (two digits and a space), and `std::endl`
follows when `_lineNum > 0 && (i + 1) % _lineNum == 0`. -/
def dump_hex_loop (_lineNum : Byte) : Nat → List Byte → List Char
  | _, [] => []
  | i, b :: rest =>
    [hex_digit (b.val / 16), hex_digit (b.val % 16), ' '] ++
      ((if 0 < _lineNum.val ∧ (i + 1) % _lineNum.val = 0 then ['\n'] else []) ++
        dump_hex_loop _lineNum (i + 1) rest)

/-- Static member `dump_hex(std::vector<uint8_t> &_vecIn, uint8_t _lineNum)`;
the returned text is given as its list of characters. -/
def dump_hex (_vecIn : List Byte) (_lineNum : Byte) : List Char :=
  dump_hex_loop _lineNum 0 _vecIn

/-- Value of a lowercase hexadecimal digit, `none` for any other character. -/
def hex_val (c : Char) : Option Nat :=
  if hex_digits.indexOf c < 16 then some (hex_digits.indexOf c) else none

/-- The characters of a text that are neither a space nor a line break. -/
def strip_blanks (s : List Char) : List Char :=
  s.filter (fun c => !(c == ' ' || c == '\n'))

/-- Reading hexadecimal digits two at a time as bytes; `none` when a
character is not a lowercase digit or a digit is left over. -/
def unhex : List Char → Option (List Byte)
  | [] => some []
  | [_] => none
  | a :: b :: rest =>
    match hex_val a, hex_val b, unhex rest with
    | some x, some y, some bs => some (Fin.ofNat (16 * x + y) :: bs)
    | _, _, _ => none

/-- The text of the `i`-th group (1-based) of a dump with line width `n`:
two digits, a space, and a line break when `n > 0` divides `i`. -/
def hex_group (n : Byte) (i : Nat) (b : Byte) : List Char :=
  [hex_digit (b.val / 16), hex_digit (b.val % 16), ' '] ++
    (if 0 < n.val ∧ i % n.val = 0 then ['\n'] else [])

/-- The groups of a dump, numbered from `i + 1`. -/
def hex_groups (n : Byte) : Nat → List Byte → List (List Char)
  | _, [] => []
  | i, b :: rest => hex_group n (i + 1) b :: hex_groups n (i + 1) rest

/-- The ranges a reader of the records with payloads `ps`, laid out from
offset `off`, goes through: for each record the 4-byte length field, then
the payload. -/
def ranges : List (List Byte) → Nat → List (Nat × Nat)
  | [], _ => []
  | p :: ps, off => (off, 4) :: (off + 4, p.length) :: ranges ps (off + 4 + p.length)

/-- In read mode, on memory holding the records with payloads `recs x`, `f`
applied to the default-constructed element `d` produces `x` and reads
exactly these records, one after the other. -/
def ReadsLog {E : Type} (f : OrmBuf → E → OrmBuf × E) (recs : E → List (List Byte))
    (ok : E → Prop) (d : E) : Prop :=
  ∀ o x, ok x → o.m_bEnc = false → Holds o.m_inBuf (frame (recs x)) →
    f o d = (o.advance (frame (recs x)).length (ranges (recs x) o.m_inBuf.off), x)

end nsOrmBuf

/-- Payloads of the records `OrmBufCompany` registers for an `Employee`. -/
def recs_employee (e : Employee) : List (List Byte) :=
  [le_bytes 4 e.id, e.name, le_bytes 1 e.age, le_bytes 4 e.salary]

/-- Payloads of the records `OrmBufCompany` registers for a `Department`. -/
def recs_department (szw : Nat) (d : Department) : List (List Byte) :=
  [le_bytes 4 d.id, d.name, le_bytes szw d.employees.length]
    ++ (d.employees.map recs_employee).flatten

/-- Payloads of the records `OrmBufCompany` registers for a `Company`. -/
def recs_company (szw : Nat) (c : Company) : List (List Byte) :=
  [c.name, le_bytes szw c.departments.length]
    ++ (c.departments.map (recs_department szw)).flatten

/-! ## Lemmas on bytes and memory -/

namespace nsOrmBuf

@[simp] theorem advance_m_bEnc (o : OrmBuf) (n : Nat) (rl : List (Nat × Nat)) :
    (o.advance n rl).m_bEnc = o.m_bEnc := rfl

@[simp] theorem advance_m_inBuf (o : OrmBuf) (n : Nat) (rl : List (Nat × Nat)) :
    (o.advance n rl).m_inBuf = o.m_inBuf.add n := rfl

@[simp] theorem advance_m_distVec (o : OrmBuf) (n : Nat) (rl : List (Nat × Nat)) :
    (o.advance n rl).m_distVec = o.m_distVec := rfl

@[simp] theorem advance_reads (o : OrmBuf) (n : Nat) (rl : List (Nat × Nat)) :
    (o.advance n rl).reads = o.reads ++ rl := rfl

@[simp] theorem put_m_bEnc (o : OrmBuf) (bs : List Byte) : (o.put bs).m_bEnc = o.m_bEnc := rfl

@[simp] theorem put_m_inBuf (o : OrmBuf) (bs : List Byte) : (o.put bs).m_inBuf = o.m_inBuf := rfl

@[simp] theorem put_m_distVec (o : OrmBuf) (bs : List Byte) :
    (o.put bs).m_distVec = o.m_distVec ++ bs := rfl

@[simp] theorem put_reads (o : OrmBuf) (bs : List Byte) : (o.put bs).reads = o.reads := rfl

theorem put_put (o : OrmBuf) (a b : List Byte) : (o.put a).put b = o.put (a ++ b) := by
  simp [OrmBuf.put, List.append_assoc]

theorem put_nil (o : OrmBuf) : o.put [] = o := by
  simp [OrmBuf.put]

@[simp] theorem add_off (p : Ptr) (n : Nat) : (p.add n).off = p.off + n := rfl

@[simp] theorem add_mem (p : Ptr) (n : Nat) : (p.add n).mem = p.mem := rfl

theorem advance_advance (o : OrmBuf) (n m : Nat) (a b : List (Nat × Nat)) :
    (o.advance n a).advance m b = o.advance (n + m) (a ++ b) := by
  simp [OrmBuf.advance, Ptr.add, Nat.add_assoc]

theorem advance_zero (o : OrmBuf) : o.advance 0 [] = o := by
  simp [OrmBuf.advance, Ptr.add]

theorem le_bytes_length (w v : Nat) : (le_bytes w v).length = w := by
  induction w generalizing v with
  | zero => rfl
  | succ w ih => simp [le_bytes, ih]

theorem le_val_le_bytes (w v : Nat) : le_val (le_bytes w v) = v % 256 ^ w := by
  induction w generalizing v with
  | zero => simp [le_bytes, le_val, Nat.mod_one]
  | succ w ih =>
    simp only [le_bytes, le_val, ih, Fin.ofNat, pow_succ]
    rw [Nat.mul_comm (256 ^ w) 256, Nat.mod_mul]

theorem le_val_le_bytes_of_lt (w v : Nat) (h : v < 256 ^ w) : le_val (le_bytes w v) = v := by
  rw [le_val_le_bytes, Nat.mod_eq_of_lt h]

theorem le_bytes_mod (w v : Nat) : le_bytes w (v % 256 ^ w) = le_bytes w v := by
  induction w generalizing v with
  | zero => rfl
  | succ w ih =>
    simp only [le_bytes]
    congr 1
    · apply Fin.ext
      simp only [Fin.ofNat, pow_succ]
      rw [Nat.mul_comm (256 ^ w) 256, Nat.mod_mul_right_mod]
    · rw [← ih (v / 256), ← ih (v % 256 ^ (w + 1) / 256)]
      congr 1
      rw [pow_succ, Nat.mul_comm (256 ^ w) 256, Nat.mod_mul_right_div_self, Nat.mod_mod]

theorem load_length (p : Ptr) (n : Nat) : (p.load n).length = n := by
  simp [Ptr.load]

theorem load_add (p : Ptr) (n m : Nat) :
    p.load (n + m) = p.load n ++ (p.add n).load m := by
  simp [Ptr.load, Ptr.add, List.range_add, List.map_append, Nat.add_assoc]

theorem holds_append (p : Ptr) (a b : List Byte) :
    Holds p (a ++ b) ↔ Holds p a ∧ Holds (p.add a.length) b := by
  unfold Holds
  rw [List.length_append, load_add]
  constructor
  · intro h
    have := List.append_inj h (by simp [load_length])
    exact this
  · rintro ⟨h1, h2⟩
    rw [h1, h2]

theorem holds_mem_of (buf rest : List Byte) (beyond : Nat → Byte) :
    Holds { mem := mem_of (buf ++ rest) beyond, off := 0 } buf := by
  unfold Holds Ptr.load
  apply List.ext_get
  · simp
  · intro i h1 h2
    simp only [List.length_map, List.length_range] at h1
    have h3 : i < buf.length + rest.length := by omega
    simp [mem_of, h3, List.getElem_append_left h1]

theorem tiles_append (a b : List (Nat × Nat)) (x y z : Nat)
    (h1 : Tiles a x y) (h2 : Tiles b y z) : Tiles (a ++ b) x z := by
  induction a generalizing x with
  | nil => simp only [Tiles] at h1; subst h1; simpa using h2
  | cons r rest ih =>
    simp only [Tiles] at h1
    simp only [List.cons_append, Tiles]
    exact ⟨h1.1, ih _ h1.2⟩

end nsOrmBuf

/-! ## The scalar codec -/

namespace nsOrmBuf

theorem enc_num_of_lt (w v : Nat) (hw : w < 2 ^ 32) :
    enc_num w v = le_bytes 4 w ++ le_bytes w v := by
  simp only [enc_num, Nat.mod_eq_of_lt hw]
  rw [List.take_of_length_le (by rw [le_bytes_length])]

theorem enc_str_of_lt (s : List Byte) (hs : s.length < 2 ^ 32) :
    enc_str s = le_bytes 4 s.length ++ s := by
  simp only [enc_str, Nat.mod_eq_of_lt hs]
  rw [List.take_of_length_le (Nat.le_refl _)]

theorem enc_num_length (w v : Nat) : (enc_num w v).length = 4 + w % 2 ^ 32 := by
  simp only [enc_num, List.length_append, le_bytes_length, List.length_take]
  have := Nat.mod_le w (2 ^ 32)
  omega

theorem enc_str_length (s : List Byte) : (enc_str s).length = 4 + s.length % 2 ^ 32 := by
  simp only [enc_str, List.length_append, le_bytes_length, List.length_take]
  have := Nat.mod_le s.length (2 ^ 32)
  omega

theorem reg_ele_writes (w : Nat) : WritesAs (reg_ele w) (enc_num w) := by
  intro o x hm
  simp [reg_ele, hm, do_encode_num, enc_num, OrmBuf.put, List.append_assoc]

theorem reg_ele_string_writes : WritesAs reg_ele_string enc_str := by
  intro o x hm
  simp [reg_ele_string, hm, do_encode_num_string, enc_str, OrmBuf.put, List.append_assoc]

theorem reg_ele_read (w : Nat) (o : OrmBuf) (v d : Nat) (hw : w < 2 ^ 32) (hv : v < 256 ^ w)
    (hm : o.m_bEnc = false) (hh : Holds o.m_inBuf (enc_num w v)) :
    reg_ele w o d =
      (o.advance (enc_num w v).length [(o.m_inBuf.off, 4), (o.m_inBuf.off + 4, w)], v) := by
  rw [enc_num_of_lt w v hw, holds_append] at hh
  obtain ⟨h1, h2⟩ := hh
  unfold Holds at h1 h2
  simp only [le_bytes_length] at h1 h2
  simp only [reg_ele, hm, do_decode_num, h1, h2, Bool.false_eq_true, if_false]
  rw [le_val_le_bytes_of_lt w v hv, le_val_le_bytes_of_lt 4 w (by simpa using hw),
    enc_num_length, Nat.mod_eq_of_lt hw]
  simp [OrmBuf.advance, Ptr.add, Nat.add_assoc, hm]

theorem reg_ele_string_read (o : OrmBuf) (s d : List Byte) (hs : s.length < 2 ^ 32)
    (hm : o.m_bEnc = false) (hh : Holds o.m_inBuf (enc_str s)) :
    reg_ele_string o d =
      (o.advance (enc_str s).length [(o.m_inBuf.off, 4), (o.m_inBuf.off + 4, s.length)], s) := by
  rw [enc_str_of_lt s hs, holds_append] at hh
  obtain ⟨h1, h2⟩ := hh
  unfold Holds at h1 h2
  simp only [le_bytes_length] at h1 h2
  simp only [reg_ele_string, hm, do_decode_num_string, h1, Bool.false_eq_true, if_false]
  rw [le_val_le_bytes_of_lt 4 s.length (by simpa using hs), h2, enc_str_length,
    Nat.mod_eq_of_lt hs]
  simp [OrmBuf.advance, Ptr.add, Nat.add_assoc, hm]

end nsOrmBuf

namespace nsOrmBuf

theorem reg_ele_reads (w d : Nat) (hw : w < 2 ^ 32) :
    ReadsBack (reg_ele w) (enc_num w) (fun v => v < 256 ^ w) d := by
  intro o v hv hm hh
  refine ⟨[(o.m_inBuf.off, 4), (o.m_inBuf.off + 4, w)], ?_, reg_ele_read w o v d hw hv hm hh⟩
  have hmod : w % 4294967296 = w := Nat.mod_eq_of_lt (by simpa using hw)
  simp [Tiles, enc_num_length, hmod, Nat.add_assoc]

theorem reg_ele_string_reads (d : List Byte) :
    ReadsBack reg_ele_string enc_str (fun s => s.length < 2 ^ 32) d := by
  intro o s hs hm hh
  refine ⟨[(o.m_inBuf.off, 4), (o.m_inBuf.off + 4, s.length)], ?_,
    reg_ele_string_read o s d hs hm hh⟩
  have hmod : s.length % 4294967296 = s.length := Nat.mod_eq_of_lt (by simpa using hs)
  simp [Tiles, enc_str_length, hmod, Nat.add_assoc]

end nsOrmBuf

/-! ## The collection codec -/

namespace nsOrmBuf

theorem for_each_writes {E : Type} (f : OrmBuf → E → OrmBuf × E) (enc : E → List Byte)
    (hf : WritesAs f enc) (xs : List E) (o : OrmBuf) (hm : o.m_bEnc = true) :
    for_each f o xs = (o.put (xs.map enc).flatten, xs) := by
  induction xs generalizing o with
  | nil => simp [for_each, put_nil]
  | cons x rest ih =>
    simp only [for_each, hf o x hm]
    rw [ih _ (by simpa using hm)]
    simp [put_put]

theorem reg_arr_writes {E : Type} (szw : Nat) (d : E) (f : OrmBuf → E → OrmBuf × E)
    (enc : E → List Byte) (hf : WritesAs f enc) :
    WritesAs (reg_arr szw d f) (enc_arr szw enc) := by
  intro o xs hm
  simp only [reg_arr, reg_ele_writes szw o _ hm]
  rw [for_each_writes f enc hf _ _ (by simpa using hm)]
  simp [hm, enc_arr, enc_num, le_bytes_mod, put_put]

theorem for_each_reads {E : Type} (f : OrmBuf → E → OrmBuf × E) (enc : E → List Byte)
    (ok : E → Prop) (d : E) (hf : ReadsBack f enc ok d) (xs : List E) (o : OrmBuf)
    (hok : ∀ x ∈ xs, ok x) (hm : o.m_bEnc = false)
    (hh : Holds o.m_inBuf (xs.map enc).flatten) :
    ∃ rl, Tiles rl o.m_inBuf.off (o.m_inBuf.off + ((xs.map enc).flatten).length) ∧
      for_each f o (List.replicate xs.length d) =
        (o.advance ((xs.map enc).flatten).length rl, xs) := by
  induction xs generalizing o with
  | nil => exact ⟨[], by simp [Tiles], by simp [for_each, advance_zero]⟩
  | cons x rest ih =>
    simp only [List.map_cons, List.flatten_cons] at hh ⊢
    rw [holds_append] at hh
    obtain ⟨rl1, ht1, h1⟩ := hf o x (hok x (by simp)) hm hh.1
    obtain ⟨rl2, ht2, h2⟩ := ih (o.advance (enc x).length rl1)
      (fun y hy => hok y (by simp [hy])) (by simpa using hm) (by simpa using hh.2)
    refine ⟨rl1 ++ rl2, ?_, ?_⟩
    · apply tiles_append _ _ _ _ _ ht1
      simpa [Nat.add_assoc] using ht2
    · simp only [List.length_cons, List.replicate_succ, for_each, h1, h2, advance_advance,
        List.length_append]

theorem reg_arr_reads {E : Type} (szw : Nat) (d : E) (f : OrmBuf → E → OrmBuf × E)
    (enc : E → List Byte) (ok : E → Prop) (hszw : szw < 2 ^ 32) (hf : ReadsBack f enc ok d) :
    ReadsBack (reg_arr szw d f) (enc_arr szw enc)
      (fun xs => xs.length < 256 ^ szw ∧ ∀ x ∈ xs, ok x) [] := by
  intro o xs hok hm hh
  unfold enc_arr at hh
  rw [holds_append] at hh
  obtain ⟨l1, t1, e1⟩ := reg_ele_reads szw ([] : List E).length hszw o xs.length hok.1 hm hh.1
  obtain ⟨l2, t2, e2⟩ := for_each_reads f enc ok d hf xs (o.advance (enc_num szw xs.length).length l1)
    hok.2 (by simpa using hm) (by simpa using hh.2)
  refine ⟨l1 ++ l2, ?_, ?_⟩
  · refine tiles_append _ _ _ _ _ t1 ?_
    simpa [enc_arr, Nat.add_assoc] using t2
  · simp only [reg_arr]
    simp only [List.length_nil, Nat.zero_mod] at e1 ⊢
    rw [e1]
    simp only [advance_m_bEnc, hm, Bool.not_false, if_true, List.nil_append]
    rw [e2, advance_advance]
    simp [enc_arr]

end nsOrmBuf

/-! ## The Company adapter -/

theorem reg_employee_writes : WritesAs OrmBufCompany.reg_employee enc_employee := by
  intro o e hm
  have h1 := reg_ele_writes 4
  have h2 := reg_ele_writes 1
  have h3 := reg_ele_string_writes
  unfold WritesAs at h1 h2 h3
  simp [OrmBufCompany.reg_employee, h1, h2, h3, hm, enc_employee, put_put]

theorem reg_employee_reads :
    ReadsBack OrmBufCompany.reg_employee enc_employee Employee.wf Employee.ele_tmp := by
  intro o e hwf hm hh
  obtain ⟨hid, hname, hage, hsal⟩ := hwf
  unfold enc_employee at hh
  simp only [holds_append] at hh
  obtain ⟨h1, h2, h3, h4⟩ := hh
  obtain ⟨l1, t1, e1⟩ := reg_ele_reads 4 0 (by norm_num) o e.id hid hm h1
  obtain ⟨l2, t2, e2⟩ := reg_ele_string_reads []
    (o.advance (enc_num 4 e.id).length l1) e.name hname (by simpa using hm) (by simpa using h2)
  obtain ⟨l3, t3, e3⟩ := reg_ele_reads 1 0 (by norm_num)
    ((o.advance (enc_num 4 e.id).length l1).advance (enc_str e.name).length l2) e.age
    (by simpa using hage) (by simpa using hm) (by simpa using h3)
  obtain ⟨l4, t4, e4⟩ := reg_ele_reads 4 0 (by norm_num)
    (((o.advance (enc_num 4 e.id).length l1).advance (enc_str e.name).length l2).advance
      (enc_num 1 e.age).length l3) e.salary hsal (by simpa using hm) (by simpa using h4)
  refine ⟨l1 ++ (l2 ++ (l3 ++ l4)), ?_, ?_⟩
  · refine tiles_append _ _ _ _ _ t1 (tiles_append _ _ _ _ _ (by simpa using t2)
      (tiles_append _ _ _ _ _ (by simpa using t3) ?_))
    simpa [enc_employee, Nat.add_assoc] using t4
  · simp only [OrmBufCompany.reg_employee, Employee.ele_tmp, e1, e2, e3, e4]
    simp [enc_employee, advance_advance, Nat.add_assoc]

theorem reg_department_writes (szw : Nat) :
    WritesAs (OrmBufCompany.reg_department szw) (enc_department szw) := by
  intro o d hm
  have h1 := reg_ele_writes 4
  have h2 := reg_arr_writes szw Employee.ele_tmp _ enc_employee reg_employee_writes
  have h3 := reg_ele_string_writes
  unfold WritesAs at h1 h2 h3
  simp [OrmBufCompany.reg_department, h1, h2, h3, hm, enc_department, put_put]

theorem reg_department_reads (szw : Nat) (hszw : szw < 2 ^ 32) :
    ReadsBack (OrmBufCompany.reg_department szw) (enc_department szw) (Department.wf szw)
      Department.ele_tmp := by
  intro o d hwf hm hh
  obtain ⟨hid, hname, harr⟩ := hwf
  unfold enc_department at hh
  simp only [holds_append] at hh
  obtain ⟨h1, h2, h3⟩ := hh
  obtain ⟨l1, t1, e1⟩ := reg_ele_reads 4 0 (by norm_num) o d.id hid hm h1
  obtain ⟨l2, t2, e2⟩ := reg_ele_string_reads []
    (o.advance (enc_num 4 d.id).length l1) d.name hname (by simpa using hm) (by simpa using h2)
  obtain ⟨l3, t3, e3⟩ := reg_arr_reads szw Employee.ele_tmp _ enc_employee Employee.wf hszw
    reg_employee_reads
    ((o.advance (enc_num 4 d.id).length l1).advance (enc_str d.name).length l2)
    d.employees harr (by simpa using hm) (by simpa using h3)
  refine ⟨l1 ++ (l2 ++ l3), ?_, ?_⟩
  · refine tiles_append _ _ _ _ _ t1 (tiles_append _ _ _ _ _ (by simpa using t2) ?_)
    simpa [enc_department, Nat.add_assoc] using t3
  · simp only [OrmBufCompany.reg_department, Department.ele_tmp, e1, e2, e3]
    simp [enc_department, advance_advance, Nat.add_assoc]

theorem init_buf_company_write (szw : Nat) (o : OrmBuf) (c : Company) (hm : o.m_bEnc = true) :
    OrmBufCompany.init_buf szw o c = (true, o.put (enc_company szw c), c) := by
  have h2 := reg_arr_writes szw Department.ele_tmp _ (enc_department szw)
    (reg_department_writes szw)
  have h3 := reg_ele_string_writes
  unfold WritesAs at h2 h3
  simp [OrmBufCompany.init_buf, h2, h3, hm, enc_company, put_put]

theorem init_buf_company_read (szw : Nat) (hszw : szw < 2 ^ 32) (o : OrmBuf) (c : Company)
    (hwf : c.wf szw) (hm : o.m_bEnc = false) (hh : Holds o.m_inBuf (enc_company szw c)) :
    ∃ rl, Tiles rl o.m_inBuf.off (o.m_inBuf.off + (enc_company szw c).length) ∧
      OrmBufCompany.init_buf szw o Company.default =
        (true, o.advance (enc_company szw c).length rl, c) := by
  obtain ⟨hname, harr⟩ := hwf
  unfold enc_company at hh
  simp only [holds_append] at hh
  obtain ⟨h1, h2⟩ := hh
  obtain ⟨l1, t1, e1⟩ := reg_ele_string_reads [] o c.name hname hm h1
  obtain ⟨l2, t2, e2⟩ := reg_arr_reads szw Department.ele_tmp _ (enc_department szw)
    (Department.wf szw) hszw (reg_department_reads szw hszw)
    (o.advance (enc_str c.name).length l1) c.departments harr
    (by simpa using hm) (by simpa using h2)
  refine ⟨l1 ++ l2, ?_, ?_⟩
  · refine tiles_append _ _ _ _ _ t1 ?_
    simpa [enc_company, Nat.add_assoc] using t2
  · simp only [OrmBufCompany.init_buf, Company.default, e1, e2]
    simp [enc_company, advance_advance, Nat.add_assoc]

/-! ## The Dat adapter -/

theorem reg_e3_writes : WritesAs OrmBufDat.reg_e3 enc_e3 := by
  intro o e hm
  have h1 := reg_ele_writes 8
  have h3 := reg_ele_string_writes
  unfold WritesAs at h1 h3
  simp [OrmBufDat.reg_e3, h1, h3, hm, enc_e3, put_put]

theorem reg_e3_reads : ReadsBack OrmBufDat.reg_e3 enc_e3 DatEleEleEle.wf DatEleEleEle.ele_tmp := by
  intro o e hwf hm hh
  obtain ⟨hu, hs⟩ := hwf
  unfold enc_e3 at hh
  simp only [holds_append] at hh
  obtain ⟨h1, h2⟩ := hh
  obtain ⟨l1, t1, e1⟩ := reg_ele_reads 8 0 (by norm_num) o e.u64 hu hm h1
  obtain ⟨l2, t2, e2⟩ := reg_ele_string_reads []
    (o.advance (enc_num 8 e.u64).length l1) e.s hs (by simpa using hm) (by simpa using h2)
  refine ⟨l1 ++ l2, ?_, ?_⟩
  · refine tiles_append _ _ _ _ _ t1 ?_
    simpa [enc_e3, Nat.add_assoc] using t2
  · simp only [OrmBufDat.reg_e3, DatEleEleEle.ele_tmp, e1, e2]
    simp [enc_e3, advance_advance, Nat.add_assoc]

theorem reg_e2_writes (szw : Nat) : WritesAs (OrmBufDat.reg_e2 szw) (enc_e2 szw) := by
  intro o e hm
  have h1 := reg_ele_writes 4
  have h2 := reg_arr_writes szw DatEleEleEle.ele_tmp _ enc_e3 reg_e3_writes
  have h3 := reg_ele_string_writes
  unfold WritesAs at h1 h2 h3
  simp [OrmBufDat.reg_e2, h1, h2, h3, hm, enc_e2, put_put]

theorem reg_e2_reads (szw : Nat) (hszw : szw < 2 ^ 32) :
    ReadsBack (OrmBufDat.reg_e2 szw) (enc_e2 szw) (DatEleEle.wf szw) DatEleEle.ele_tmp := by
  intro o e hwf hm hh
  obtain ⟨hu, hs, harr⟩ := hwf
  unfold enc_e2 at hh
  simp only [holds_append] at hh
  obtain ⟨h1, h2, h3⟩ := hh
  obtain ⟨l1, t1, e1⟩ := reg_ele_reads 4 0 (by norm_num) o e.u32 hu hm h1
  obtain ⟨l2, t2, e2⟩ := reg_ele_string_reads []
    (o.advance (enc_num 4 e.u32).length l1) e.s hs (by simpa using hm) (by simpa using h2)
  obtain ⟨l3, t3, e3⟩ := reg_arr_reads szw DatEleEleEle.ele_tmp _ enc_e3 DatEleEleEle.wf hszw
    reg_e3_reads ((o.advance (enc_num 4 e.u32).length l1).advance (enc_str e.s).length l2)
    e.e2_arr harr (by simpa using hm) (by simpa using h3)
  refine ⟨l1 ++ (l2 ++ l3), ?_, ?_⟩
  · refine tiles_append _ _ _ _ _ t1 (tiles_append _ _ _ _ _ (by simpa using t2) ?_)
    simpa [enc_e2, Nat.add_assoc] using t3
  · simp only [OrmBufDat.reg_e2, DatEleEle.ele_tmp, e1, e2, e3]
    simp [enc_e2, advance_advance, Nat.add_assoc]

theorem reg_e1_writes (szw : Nat) : WritesAs (OrmBufDat.reg_e1 szw) (enc_e1 szw) := by
  intro o e hm
  have h1 := reg_ele_writes 2
  have h2 := reg_arr_writes szw DatEleEle.ele_tmp _ (enc_e2 szw) (reg_e2_writes szw)
  have h3 := reg_ele_string_writes
  unfold WritesAs at h1 h2 h3
  simp [OrmBufDat.reg_e1, h1, h2, h3, hm, enc_e1, put_put]

theorem reg_e1_reads (szw : Nat) (hszw : szw < 2 ^ 32) :
    ReadsBack (OrmBufDat.reg_e1 szw) (enc_e1 szw) (DatEle.wf szw) DatEle.ele_tmp := by
  intro o e hwf hm hh
  obtain ⟨hu, hs, harr⟩ := hwf
  unfold enc_e1 at hh
  simp only [holds_append] at hh
  obtain ⟨h1, h2, h3⟩ := hh
  obtain ⟨l1, t1, e1⟩ := reg_ele_reads 2 0 (by norm_num) o e.u16 hu hm h1
  obtain ⟨l2, t2, e2⟩ := reg_ele_string_reads []
    (o.advance (enc_num 2 e.u16).length l1) e.s hs (by simpa using hm) (by simpa using h2)
  obtain ⟨l3, t3, e3⟩ := reg_arr_reads szw DatEleEle.ele_tmp _ (enc_e2 szw) (DatEleEle.wf szw)
    hszw (reg_e2_reads szw hszw)
    ((o.advance (enc_num 2 e.u16).length l1).advance (enc_str e.s).length l2)
    e.arr harr (by simpa using hm) (by simpa using h3)
  refine ⟨l1 ++ (l2 ++ l3), ?_, ?_⟩
  · refine tiles_append _ _ _ _ _ t1 (tiles_append _ _ _ _ _ (by simpa using t2) ?_)
    simpa [enc_e1, Nat.add_assoc] using t3
  · simp only [OrmBufDat.reg_e1, DatEle.ele_tmp, e1, e2, e3]
    simp [enc_e1, advance_advance, Nat.add_assoc]

theorem init_buf_dat_write (szw : Nat) (o : OrmBuf) (d : Dat) (hm : o.m_bEnc = true) :
    OrmBufDat.init_buf szw o d = (true, o.put (enc_dat szw d), d) := by
  have h1 := reg_ele_writes 1
  have h2 := reg_ele_writes 2
  have h4 := reg_ele_writes 4
  have h8 := reg_ele_writes 8
  have h5 := reg_arr_writes szw DatEle.ele_tmp _ (enc_e1 szw) (reg_e1_writes szw)
  have h6 := reg_arr_writes szw DatEleEle.ele_tmp _ (enc_e2 szw) (reg_e2_writes szw)
  have h3 := reg_ele_string_writes
  unfold WritesAs at h1 h2 h3 h4 h5 h6 h8
  simp [OrmBufDat.init_buf, h1, h2, h3, h4, h5, h6, h8, hm, enc_dat, put_put]

theorem init_buf_dat_read (szw : Nat) (hszw : szw < 2 ^ 32) (o : OrmBuf) (d : Dat)
    (hwf : d.wf szw) (hm : o.m_bEnc = false) (hh : Holds o.m_inBuf (enc_dat szw d)) :
    ∃ rl, Tiles rl o.m_inBuf.off (o.m_inBuf.off + (enc_dat szw d).length) ∧
      OrmBufDat.init_buf szw o Dat.default = (true, o.advance (enc_dat szw d).length rl, d) := by
  obtain ⟨hu16, hu32, hu8, hf, hd, hu64, hs, harr, harr2⟩ := hwf
  unfold enc_dat at hh
  simp only [holds_append] at hh
  obtain ⟨h1, h2, h3, h4, h5, h6, h7, h8, h9⟩ := hh
  obtain ⟨l1, t1, e1⟩ := reg_ele_reads 2 0 (by norm_num) o d.u16 hu16 hm h1
  generalize ha1 : o.advance (enc_num 2 d.u16).length l1 = o1 at e1
  have hm1 : o1.m_bEnc = false := by rw [← ha1]; simpa using hm
  have hp1 : o1.m_inBuf = o.m_inBuf.add (enc_num 2 d.u16).length := by rw [← ha1]; rfl
  rw [← hp1] at h2 h3 h4 h5 h6 h7 h8 h9
  obtain ⟨l2, t2, e2⟩ := reg_ele_reads 4 0 (by norm_num) o1 d.u32 hu32 hm1 h2
  generalize ha2 : o1.advance (enc_num 4 d.u32).length l2 = o2 at e2
  have hm2 : o2.m_bEnc = false := by rw [← ha2]; simpa using hm1
  have hp2 : o2.m_inBuf = o1.m_inBuf.add (enc_num 4 d.u32).length := by rw [← ha2]; rfl
  rw [← hp2] at h3 h4 h5 h6 h7 h8 h9
  obtain ⟨l3, t3, e3⟩ := reg_ele_reads 1 0 (by norm_num) o2 d.u8 (by simpa using hu8) hm2 h3
  generalize ha3 : o2.advance (enc_num 1 d.u8).length l3 = o3 at e3
  have hm3 : o3.m_bEnc = false := by rw [← ha3]; simpa using hm2
  have hp3 : o3.m_inBuf = o2.m_inBuf.add (enc_num 1 d.u8).length := by rw [← ha3]; rfl
  rw [← hp3] at h4 h5 h6 h7 h8 h9
  obtain ⟨l4, t4, e4⟩ := reg_ele_reads 4 0 (by norm_num) o3 d.f hf hm3 h4
  generalize ha4 : o3.advance (enc_num 4 d.f).length l4 = o4 at e4
  have hm4 : o4.m_bEnc = false := by rw [← ha4]; simpa using hm3
  have hp4 : o4.m_inBuf = o3.m_inBuf.add (enc_num 4 d.f).length := by rw [← ha4]; rfl
  rw [← hp4] at h5 h6 h7 h8 h9
  obtain ⟨l5, t5, e5⟩ := reg_ele_reads 8 0 (by norm_num) o4 d.d hd hm4 h5
  generalize ha5 : o4.advance (enc_num 8 d.d).length l5 = o5 at e5
  have hm5 : o5.m_bEnc = false := by rw [← ha5]; simpa using hm4
  have hp5 : o5.m_inBuf = o4.m_inBuf.add (enc_num 8 d.d).length := by rw [← ha5]; rfl
  rw [← hp5] at h6 h7 h8 h9
  obtain ⟨l6, t6, e6⟩ := reg_ele_reads 8 0 (by norm_num) o5 d.u64 hu64 hm5 h6
  generalize ha6 : o5.advance (enc_num 8 d.u64).length l6 = o6 at e6
  have hm6 : o6.m_bEnc = false := by rw [← ha6]; simpa using hm5
  have hp6 : o6.m_inBuf = o5.m_inBuf.add (enc_num 8 d.u64).length := by rw [← ha6]; rfl
  rw [← hp6] at h7 h8 h9
  obtain ⟨l7, t7, e7⟩ := reg_ele_string_reads [] o6 d.s hs hm6 h7
  generalize ha7 : o6.advance (enc_str d.s).length l7 = o7 at e7
  have hm7 : o7.m_bEnc = false := by rw [← ha7]; simpa using hm6
  have hp7 : o7.m_inBuf = o6.m_inBuf.add (enc_str d.s).length := by rw [← ha7]; rfl
  rw [← hp7] at h8 h9
  obtain ⟨l8, t8, e8⟩ := reg_arr_reads szw DatEle.ele_tmp _ (enc_e1 szw) (DatEle.wf szw)
    hszw (reg_e1_reads szw hszw) o7 d.arr harr hm7 h8
  generalize ha8 : o7.advance (enc_arr szw (enc_e1 szw) d.arr).length l8 = o8 at e8
  have hm8 : o8.m_bEnc = false := by rw [← ha8]; simpa using hm7
  have hp8 : o8.m_inBuf = o7.m_inBuf.add (enc_arr szw (enc_e1 szw) d.arr).length := by
    rw [← ha8]; rfl
  rw [← hp8] at h9
  obtain ⟨l9, t9, e9⟩ := reg_arr_reads szw DatEleEle.ele_tmp _ (enc_e2 szw) (DatEleEle.wf szw)
    hszw (reg_e2_reads szw hszw) o8 d.arr2 harr2 hm8 h9
  refine ⟨l1 ++ (l2 ++ (l3 ++ (l4 ++ (l5 ++ (l6 ++ (l7 ++ (l8 ++ l9))))))), ?_, ?_⟩
  · rw [hp8, hp7, hp6, hp5, hp4, hp3, hp2, hp1] at t9
    rw [hp7, hp6, hp5, hp4, hp3, hp2, hp1] at t8
    rw [hp6, hp5, hp4, hp3, hp2, hp1] at t7
    rw [hp5, hp4, hp3, hp2, hp1] at t6
    rw [hp4, hp3, hp2, hp1] at t5
    rw [hp3, hp2, hp1] at t4
    rw [hp2, hp1] at t3
    rw [hp1] at t2
    refine tiles_append _ _ _ _ _ t1 (tiles_append _ _ _ _ _ (by simpa using t2)
      (tiles_append _ _ _ _ _ (by simpa using t3) (tiles_append _ _ _ _ _ (by simpa using t4)
      (tiles_append _ _ _ _ _ (by simpa using t5) (tiles_append _ _ _ _ _ (by simpa using t6)
      (tiles_append _ _ _ _ _ (by simpa using t7) (tiles_append _ _ _ _ _ (by simpa using t8)
      ?_)))))))
    simpa [enc_dat, Nat.add_assoc] using t9
  · simp only [OrmBufDat.init_buf, Dat.default, e1, e2, e3, e4, e5, e6, e7, e8, e9]
    subst ha1 ha2 ha3 ha4 ha5 ha6 ha7 ha8
    simp [enc_dat, advance_advance, Nat.add_assoc]

/-! ## Whole-call behaviour of the two adapters -/

theorem encode_company (szw : Nat) (o : OrmBuf) (v : Company) (out : List Byte) :
    encode (OrmBufCompany.init_buf szw) o v out =
      { ret := true, self := ({ o with m_bEnc := true }).put (enc_company szw v), t := v,
        distBuf := o.m_distVec ++ enc_company szw v } := by
  simp [encode, init_buf_company_write szw { o with m_bEnc := true } v rfl]

theorem decode_company (szw : Nat) (hszw : szw < 2 ^ 32) (o : OrmBuf) (v : Company)
    (rest : List Byte) (beyond : Nat → Byte) (hwf : v.wf szw) :
    ∃ rl, Tiles rl 0 (enc_company szw v).length ∧
      decode (OrmBufCompany.init_buf szw) o (enc_company szw v ++ rest) beyond Company.default =
        { ret := true,
          self := { m_bEnc := false,
                    m_inBuf := { mem := mem_of (enc_company szw v ++ rest) beyond,
                                 off := (enc_company szw v).length },
                    m_distVec := o.m_distVec, reads := rl },
          t := v } := by
  obtain ⟨rl, ht, he⟩ := init_buf_company_read szw hszw
    { m_bEnc := false,
      m_inBuf := { mem := mem_of (enc_company szw v ++ rest) beyond, off := 0 },
      m_distVec := o.m_distVec, reads := [] } v hwf rfl (holds_mem_of _ _ _)
  refine ⟨rl, by simpa using ht, ?_⟩
  simp only [decode, he]
  simp [OrmBuf.advance, Ptr.add]

theorem encode_dat (szw : Nat) (o : OrmBuf) (v : Dat) (out : List Byte) :
    encode (OrmBufDat.init_buf szw) o v out =
      { ret := true, self := ({ o with m_bEnc := true }).put (enc_dat szw v), t := v,
        distBuf := o.m_distVec ++ enc_dat szw v } := by
  simp [encode, init_buf_dat_write szw { o with m_bEnc := true } v rfl]

theorem decode_dat (szw : Nat) (hszw : szw < 2 ^ 32) (o : OrmBuf) (v : Dat)
    (rest : List Byte) (beyond : Nat → Byte) (hwf : v.wf szw) :
    ∃ rl, Tiles rl 0 (enc_dat szw v).length ∧
      decode (OrmBufDat.init_buf szw) o (enc_dat szw v ++ rest) beyond Dat.default =
        { ret := true,
          self := { m_bEnc := false,
                    m_inBuf := { mem := mem_of (enc_dat szw v ++ rest) beyond,
                                 off := (enc_dat szw v).length },
                    m_distVec := o.m_distVec, reads := rl },
          t := v } := by
  obtain ⟨rl, ht, he⟩ := init_buf_dat_read szw hszw
    { m_bEnc := false,
      m_inBuf := { mem := mem_of (enc_dat szw v ++ rest) beyond, off := 0 },
      m_distVec := o.m_distVec, reads := [] } v hwf rfl (holds_mem_of _ _ _)
  refine ⟨rl, by simpa using ht, ?_⟩
  simp only [decode, he]
  simp [OrmBuf.advance, Ptr.add]

/-! ## The collection codec under weak assumptions on the element function -/

namespace nsOrmBuf

theorem for_each_dist {E : Type} (f : OrmBuf → E → OrmBuf × E) (enc : E → List Byte)
    (hf : ∀ o x, o.m_bEnc = true →
      (f o x).1.m_bEnc = true ∧ (f o x).1.m_distVec = o.m_distVec ++ enc x)
    (xs : List E) (o : OrmBuf) (hm : o.m_bEnc = true) :
    (for_each f o xs).1.m_bEnc = true ∧
      (for_each f o xs).1.m_distVec = o.m_distVec ++ (xs.map enc).flatten := by
  induction xs generalizing o with
  | nil => simp [for_each, hm]
  | cons x rest ih =>
    obtain ⟨h1, h2⟩ := hf o x hm
    obtain ⟨h3, h4⟩ := ih (f o x).1 h1
    simp only [for_each]
    exact ⟨h3, by rw [h4, h2]; simp⟩

theorem reg_arr_dist {E : Type} (szw : Nat) (d : E) (f : OrmBuf → E → OrmBuf × E)
    (enc : E → List Byte)
    (hf : ∀ o x, o.m_bEnc = true →
      (f o x).1.m_bEnc = true ∧ (f o x).1.m_distVec = o.m_distVec ++ enc x)
    (xs : List E) (o : OrmBuf) (hm : o.m_bEnc = true) :
    (reg_arr szw d f o xs).1.m_distVec =
      o.m_distVec ++ (enc_num szw xs.length ++ (xs.map enc).flatten) := by
  simp only [reg_arr, reg_ele_writes szw o _ hm]
  simp only [put_m_bEnc, hm, Bool.not_true, Bool.false_eq_true, if_false]
  rw [(for_each_dist f enc hf xs _ (by simpa using hm)).2]
  simp [enc_num, le_bytes_mod]

theorem for_each_back {E : Type} (d : E) (f : OrmBuf → E → OrmBuf × E) (enc : E → List Byte)
    (xs : List E)
    (hf : ∀ o, ∀ x ∈ xs, o.m_bEnc = false → Holds o.m_inBuf (enc x) →
      (f o d).2 = x ∧ (f o d).1.m_bEnc = false ∧
        (f o d).1.m_inBuf = o.m_inBuf.add (enc x).length)
    (o : OrmBuf) (hm : o.m_bEnc = false) (hh : Holds o.m_inBuf (xs.map enc).flatten) :
    (for_each f o (List.replicate xs.length d)).2 = xs := by
  induction xs generalizing o with
  | nil => simp [for_each]
  | cons x rest ih =>
    simp only [List.map_cons, List.flatten_cons] at hh
    rw [holds_append] at hh
    obtain ⟨h1, h2, h3⟩ := hf o x (by simp) hm hh.1
    have h4 := ih (fun o y hy => hf o y (by simp [hy])) (f o d).1 h2 (by rw [h3]; exact hh.2)
    simp only [List.length_cons, List.replicate_succ, for_each, h1, h4]

end nsOrmBuf

namespace nsOrmBuf

theorem reg_ele_string_wraps (o : OrmBuf) (s : List Byte) (hm : o.m_bEnc = true)
    (hs : s.length = 2 ^ 32) :
    (reg_ele_string o s).1.m_distVec = o.m_distVec ++ [0, 0, 0, 0] := by
  rw [reg_ele_string_writes o s hm]
  simp only [put_m_distVec, enc_str, hs, Nat.mod_self, List.take_zero, List.append_nil]
  rfl

end nsOrmBuf

/-! ## Framing of the output -/

namespace nsOrmBuf

theorem frame_append (a b : List (List Byte)) : frame (a ++ b) = frame a ++ frame b := by
  simp [frame]

theorem framed_nil : Framed [] := ⟨[], by simp, by simp [frame]⟩

theorem framed_append (a b : List Byte) (ha : Framed a) (hb : Framed b) : Framed (a ++ b) := by
  obtain ⟨pa, ha1, ha2⟩ := ha
  obtain ⟨pb, hb1, hb2⟩ := hb
  refine ⟨pa ++ pb, ?_, by rw [frame_append, ha2, hb2]⟩
  intro p hp
  rcases List.mem_append.mp hp with h | h
  · exact ha1 p h
  · exact hb1 p h

theorem enc_num_frame (w v : Nat) :
    enc_num w v = frame [(le_bytes w v).take (w % 2 ^ 32)] := by
  have : ((le_bytes w v).take (w % 2 ^ 32)).length = w % 2 ^ 32 := by
    rw [List.length_take, le_bytes_length]; exact Nat.min_eq_left (Nat.mod_le _ _)
  simp only [frame, List.map_cons, List.map_nil, List.flatten_cons, List.flatten_nil,
    List.append_nil, this, enc_num]

theorem enc_str_frame (s : List Byte) : enc_str s = frame [s.take (s.length % 2 ^ 32)] := by
  have : (s.take (s.length % 2 ^ 32)).length = s.length % 2 ^ 32 := by
    rw [List.length_take]; exact Nat.min_eq_left (Nat.mod_le _ _)
  simp only [frame, List.map_cons, List.map_nil, List.flatten_cons, List.flatten_nil,
    List.append_nil, this, enc_str]

theorem framed_enc_num (w v : Nat) : Framed (enc_num w v) := by
  refine ⟨_, ?_, enc_num_frame w v⟩
  intro p hp
  rw [List.mem_singleton] at hp
  subst hp
  rw [List.length_take]
  exact lt_of_le_of_lt (Nat.min_le_left _ _) (Nat.mod_lt _ (by norm_num))

theorem framed_enc_str (s : List Byte) : Framed (enc_str s) := by
  refine ⟨_, ?_, enc_str_frame s⟩
  intro p hp
  rw [List.mem_singleton] at hp
  subst hp
  rw [List.length_take]
  exact lt_of_le_of_lt (Nat.min_le_left _ _) (Nat.mod_lt _ (by norm_num))

theorem framed_flatten {E : Type} (enc : E → List Byte) (xs : List E)
    (h : ∀ x, Framed (enc x)) : Framed (xs.map enc).flatten := by
  induction xs with
  | nil => exact framed_nil
  | cons x rest ih =>
    simp only [List.map_cons, List.flatten_cons]
    exact framed_append _ _ (h x) ih

theorem framed_enc_arr {E : Type} (szw : Nat) (enc : E → List Byte) (xs : List E)
    (h : ∀ x, Framed (enc x)) : Framed (enc_arr szw enc xs) :=
  framed_append _ _ (framed_enc_num _ _) (framed_flatten enc xs h)

end nsOrmBuf

theorem framed_enc_employee (e : Employee) : Framed (enc_employee e) :=
  framed_append _ _ (framed_enc_num _ _) (framed_append _ _ (framed_enc_str _)
    (framed_append _ _ (framed_enc_num _ _) (framed_enc_num _ _)))

theorem framed_enc_department (szw : Nat) (d : Department) : Framed (enc_department szw d) :=
  framed_append _ _ (framed_enc_num _ _) (framed_append _ _ (framed_enc_str _)
    (framed_enc_arr szw _ _ framed_enc_employee))

/-! ## Reads are determined by the bytes read -/

namespace nsOrmBuf

theorem inBounds_of_subset (n : Nat) (l1 l2 : List (Nat × Nat))
    (h : ∀ r ∈ l1, r ∈ l2) (h2 : InBounds n l2) : InBounds n l1 :=
  fun r hr => h2 r (h r hr)

theorem load_congr (m m' : Nat → Byte) (off k n : Nat) (h : ∀ i < n, m i = m' i)
    (hk : k = 0 ∨ off + k ≤ n) :
    Ptr.load { mem := m, off := off } k = Ptr.load { mem := m', off := off } k := by
  unfold Ptr.load
  apply List.map_congr_left
  intro i hi
  rw [List.mem_range] at hi
  show m (off + i) = m' (off + i)
  exact h _ (by omega)

theorem tiles_inBounds (rl : List (Nat × Nat)) (a b k : Nat) (ht : Tiles rl a b)
    (hi : InBounds k rl) (ha : a ≤ k) : b ≤ k := by
  induction rl generalizing a with
  | nil => simp only [Tiles] at ht; omega
  | cons r rest ih =>
    simp only [Tiles] at ht
    have h1 := hi r (by simp)
    exact ih (a + r.2) ht.2 (fun x hx => hi x (by simp [hx])) (by omega)

theorem loc_reg_ele (w : Nat) : Loc (reg_ele w) := by
  constructor
  · intro s a r hr
    unfold reg_ele do_decode_num do_encode_num
    split <;> simp [hr]
  · intro n s s' a ⟨hm, hm', hoff, hrd, hmem⟩ hib
    rcases hp : s.m_inBuf with ⟨m, off⟩
    rcases hp' : s'.m_inBuf with ⟨m', off'⟩
    simp only [hp, hp'] at hoff hmem
    subst hoff
    simp only [reg_ele, hm, hm', do_decode_num, hp, hp', Ptr.add, Bool.false_eq_true,
      if_false] at hib ⊢
    have h1 := hib (off, 4) (by simp)
    have h2 := hib (off + 4, w) (by simp)
    simp only at h1 h2
    have e1 := load_congr m m' off 4 n hmem h1
    have e2 := load_congr m m' (off + 4) w n hmem h2
    rw [e1, e2]
    exact ⟨⟨rfl, rfl, rfl, by rw [hrd], hmem⟩, rfl⟩

theorem loc_reg_ele_string : Loc reg_ele_string := by
  constructor
  · intro s a r hr
    unfold reg_ele_string do_decode_num_string do_encode_num_string
    split <;> simp [hr]
  · intro n s s' a ⟨hm, hm', hoff, hrd, hmem⟩ hib
    rcases hp : s.m_inBuf with ⟨m, off⟩
    rcases hp' : s'.m_inBuf with ⟨m', off'⟩
    simp only [hp, hp'] at hoff hmem
    subst hoff
    simp only [reg_ele_string, hm, hm', do_decode_num_string, hp, hp', Ptr.add,
      Bool.false_eq_true, if_false] at hib ⊢
    have h1 := hib (off, 4) (by simp)
    have h2 := hib (off + 4, le_val (Ptr.load { mem := m, off := off } 4)) (by simp)
    simp only at h1 h2
    have e1 := load_congr m m' off 4 n hmem h1
    have e2 := load_congr m m' (off + 4) _ n hmem h2
    rw [← e1, e2]
    exact ⟨⟨rfl, rfl, rfl, by rw [hrd], hmem⟩, rfl⟩

theorem loc_seq {A B : Type} (f : OrmBuf → A → OrmBuf × A) (g : OrmBuf → B → OrmBuf × B)
    (hf : Loc f) (hg : Loc g) : Loc (seq f g) := by
  constructor
  · intro s a r hr
    exact hg.1 _ _ r (hf.1 s a.1 r hr)
  · intro n s s' a hsim hib
    simp only [seq] at hib ⊢
    have h1 := hf.2 n s s' a.1 hsim (inBounds_of_subset n _ _ (hg.1 _ _) hib)
    have h2 := hg.2 n _ _ a.2 h1.1 hib
    exact ⟨h2.1, by rw [h1.2, h2.2]⟩

theorem loc_map {A B : Type} (f : OrmBuf → A → OrmBuf × A) (g : OrmBuf → B → OrmBuf × B)
    (p : A → B) (q : B → A) (hg : Loc g)
    (h : ∀ s a, f s a = ((g s (p a)).1, q (g s (p a)).2)) : Loc f := by
  constructor
  · intro s a r hr
    rw [h]
    exact hg.1 s (p a) r hr
  · intro n s s' a hsim hib
    rw [h] at hib
    rw [h, h]
    have h1 := hg.2 n s s' (p a) hsim hib
    exact ⟨h1.1, by simp only [h1.2]⟩

theorem for_each_mono {E : Type} (f : OrmBuf → E → OrmBuf × E)
    (hf : ∀ s a, ∀ r ∈ s.reads, r ∈ (f s a).1.reads) (xs : List E) (s : OrmBuf) :
    ∀ r ∈ s.reads, r ∈ (for_each f s xs).1.reads := by
  induction xs generalizing s with
  | nil => intro r hr; simpa [for_each] using hr
  | cons x rest ih =>
    intro r hr
    simp only [for_each]
    exact ih _ r (hf s x r hr)

theorem loc_for_each {E : Type} (f : OrmBuf → E → OrmBuf × E) (hf : Loc f) :
    Loc (for_each f) := by
  refine ⟨fun s a => for_each_mono f hf.1 a s, ?_⟩
  intro n s s' a
  induction a generalizing s s' with
  | nil => intro hsim _; simpa [for_each] using hsim
  | cons x rest ih =>
    intro hsim hib
    simp only [for_each] at hib ⊢
    have h1 := hf.2 n s s' x hsim
      (inBounds_of_subset n _ _ (for_each_mono f hf.1 rest _) hib)
    have h2 := ih _ _ h1.1 hib
    exact ⟨h2.1, by rw [h1.2, h2.2]⟩

theorem loc_reg_arr {E : Type} (szw : Nat) (d : E) (f : OrmBuf → E → OrmBuf × E)
    (hf : Loc f) : Loc (reg_arr szw d f) := by
  constructor
  · intro s a r hr
    simp only [reg_arr]
    exact for_each_mono f hf.1 _ _ r ((loc_reg_ele szw).1 s _ r hr)
  · intro n s s' a hsim hib
    simp only [reg_arr] at hib ⊢
    have h1 := (loc_reg_ele szw).2 n s s' (a.length % 256 ^ szw) hsim
      (inBounds_of_subset n _ _ (for_each_mono f hf.1 _ _) hib)
    obtain ⟨hs1, hv1⟩ := h1
    rw [← hv1, hs1.2.1]
    rw [hs1.1] at hib ⊢
    exact (loc_for_each f hf).2 n _ _ _ hs1 hib

end nsOrmBuf

theorem loc_reg_employee : Loc OrmBufCompany.reg_employee :=
  loc_map _ (seq (reg_ele 4) (seq reg_ele_string (seq (reg_ele 1) (reg_ele 4))))
    (fun e => (e.id, e.name, e.age, e.salary))
    (fun t => { id := t.1, name := t.2.1, age := t.2.2.1, salary := t.2.2.2 })
    (loc_seq _ _ (loc_reg_ele 4) (loc_seq _ _ loc_reg_ele_string
      (loc_seq _ _ (loc_reg_ele 1) (loc_reg_ele 4))))
    (fun _ _ => rfl)

theorem loc_reg_department (szw : Nat) : Loc (OrmBufCompany.reg_department szw) :=
  loc_map _ (seq (reg_ele 4) (seq reg_ele_string
      (reg_arr szw Employee.ele_tmp OrmBufCompany.reg_employee)))
    (fun d => (d.id, d.name, d.employees))
    (fun t => { id := t.1, name := t.2.1, employees := t.2.2 })
    (loc_seq _ _ (loc_reg_ele 4) (loc_seq _ _ loc_reg_ele_string
      (loc_reg_arr szw _ _ loc_reg_employee)))
    (fun _ _ => rfl)

theorem loc_init_buf_company (szw : Nat) :
    Loc (fun o c => (OrmBufCompany.init_buf szw o c).2) :=
  loc_map _ (seq reg_ele_string
      (reg_arr szw Department.ele_tmp (OrmBufCompany.reg_department szw)))
    (fun c => (c.name, c.departments))
    (fun t => { name := t.1, departments := t.2 })
    (loc_seq _ _ loc_reg_ele_string (loc_reg_arr szw _ _ (loc_reg_department szw)))
    (fun _ _ => rfl)

theorem mem_of_take (e : List Byte) (k i : Nat) (b b' : Nat → Byte) (hk : k ≤ e.length)
    (hi : i < k) : mem_of (e.take k) b i = mem_of e b' i := by
  have h1 : i < (e.take k).length := by rw [List.length_take]; omega
  have h2 : i < e.length := by omega
  simp only [mem_of, h1, h2, dif_pos, List.get_eq_getElem, List.getElem_take]

theorem narrow_text_length (s : List Byte) : (narrow_text s).length = s.length % 2 ^ 32 := by
  rw [narrow_text, List.length_take]
  exact Nat.min_eq_left (Nat.mod_le _ _)

theorem narrow_text_lt (s : List Byte) : (narrow_text s).length < 2 ^ 32 := by
  rw [narrow_text_length]
  exact Nat.mod_lt _ (by norm_num)

theorem enc_str_narrow (s : List Byte) : enc_str (narrow_text s) = enc_str s := by
  have h : (narrow_text s).length % 2 ^ 32 = s.length % 2 ^ 32 := by
    rw [narrow_text_length, Nat.mod_mod]
  simp only [enc_str, h]
  rw [narrow_text, List.take_take, Nat.min_self]

theorem enc_employee_narrow (e : Employee) : enc_employee e.narrow = enc_employee e := by
  simp [enc_employee, Employee.narrow, enc_str_narrow]

theorem enc_department_narrow (szw : Nat) (d : Department) :
    enc_department szw d.narrow = enc_department szw d := by
  simp [enc_department, Department.narrow, enc_str_narrow, enc_arr, List.map_map,
    Function.comp_def, enc_employee_narrow]

theorem enc_company_narrow (szw : Nat) (c : Company) :
    enc_company szw c.narrow = enc_company szw c := by
  simp [enc_company, Company.narrow, enc_str_narrow, enc_arr, List.map_map,
    Function.comp_def, enc_department_narrow]

theorem wf_narrow (szw : Nat) (c : Company) (h : c.typed szw) : c.narrow.wf szw := by
  refine ⟨narrow_text_lt _, by simpa [Company.narrow] using h.1, ?_⟩
  intro d hd
  simp only [Company.narrow, List.mem_map] at hd
  obtain ⟨d0, hd0, rfl⟩ := hd
  obtain ⟨h1, h2, h3⟩ := h.2 d0 hd0
  refine ⟨h1, narrow_text_lt _, by simpa [Department.narrow] using h2, ?_⟩
  intro e he
  simp only [Department.narrow, List.mem_map] at he
  obtain ⟨e0, he0, rfl⟩ := he
  obtain ⟨g1, g2, g3⟩ := h3 e0 he0
  exact ⟨g1, narrow_text_lt _, g2, g3⟩

theorem decode_company_cut_reads (szw : Nat) (hszw : szw < 2 ^ 32) (v : Company)
    (beyond : Nat → Byte) (k : Nat) (hty : v.typed szw) (hk : k < (enc_company szw v).length) :
    ¬ InBounds k (decode (OrmBufCompany.init_buf szw) OrmBuf.fresh
        ((enc_company szw v).take k) beyond Company.default).self.reads := by
  intro hib
  have hwf := wf_narrow szw v hty
  obtain ⟨rl, ht, hd⟩ := decode_company szw hszw OrmBuf.fresh v.narrow [] beyond hwf
  rw [List.append_nil, enc_company_narrow] at hd
  rw [enc_company_narrow] at ht
  have hsim : Sim k
      { m_bEnc := false,
        m_inBuf := { mem := mem_of ((enc_company szw v).take k) beyond, off := 0 },
        m_distVec := [], reads := [] }
      { m_bEnc := false,
        m_inBuf := { mem := mem_of (enc_company szw v) beyond, off := 0 },
        m_distVec := [], reads := [] } :=
    ⟨rfl, rfl, rfl, rfl, fun i hi => mem_of_take _ k i _ _ (Nat.le_of_lt hk) hi⟩
  have h := ((loc_init_buf_company szw).2 k _ _ Company.default hsim hib).1
  have hrd := h.2.2.2.1
  have hrl : (decode (OrmBufCompany.init_buf szw) OrmBuf.fresh (enc_company szw v) beyond
      Company.default).self.reads = rl := by rw [hd]
  have hib2 : InBounds k rl := by
    rw [← hrl]
    exact hrd ▸ hib
  have := tiles_inBounds rl 0 _ k ht hib2 (Nat.zero_le _)
  omega

theorem first_out_of_bounds (k : Nat) (l : List (Nat × Nat)) (h : ¬ InBounds k l) :
    ∃ pre r post, l = pre ++ r :: post ∧ InBounds k pre ∧ r.2 ≠ 0 ∧ k < r.1 + r.2 := by
  induction l with
  | nil => exact absurd (fun r hr => absurd hr (List.not_mem_nil r)) h
  | cons a t ih =>
    by_cases ha : a.2 = 0 ∨ a.1 + a.2 ≤ k
    · have ht : ¬ InBounds k t := by
        intro ht
        apply h
        intro r hr
        rcases List.mem_cons.mp hr with e | e
        · rw [e]; exact ha
        · exact ht r e
      obtain ⟨pre, r, post, e, hp, h1, h2⟩ := ih ht
      refine ⟨a :: pre, r, post, by rw [e]; rfl, ?_, h1, h2⟩
      intro x hx
      rcases List.mem_cons.mp hx with e' | e'
      · rw [e']; exact ha
      · exact hp x e'
    · push_neg at ha
      exact ⟨[], a, t, rfl, fun x hx => absurd hx (List.not_mem_nil x), ha.1, ha.2⟩

/-! ## Claims -/


/-- C1. Round trip for `Company`: for every `Company` value whose members
are values of their C++ types and whose texts are shorter than 2^32 bytes,
on every platform (`sizeof(size_t) = szw`) and whatever memory lies behind
the buffer, encoding with a fresh `OrmBufCompany` succeeds and decoding the
produced bytes with a fresh `OrmBufCompany` into a default-constructed
`Company` succeeds and yields the value field for field (salary by its bit
pattern); empty collections and empty texts are covered. -/
theorem company_round_trip (szw : Nat) (v : Company) (out : List Byte) (beyond : Nat → Byte)
    (hszw : szw < 2 ^ 32) (hv : v.wf szw) :
    (encode (OrmBufCompany.init_buf szw) OrmBuf.fresh v out).ret = true ∧
    (decode (OrmBufCompany.init_buf szw) OrmBuf.fresh
      (encode (OrmBufCompany.init_buf szw) OrmBuf.fresh v out).distBuf beyond
      Company.default).ret = true ∧
    (decode (OrmBufCompany.init_buf szw) OrmBuf.fresh
      (encode (OrmBufCompany.init_buf szw) OrmBuf.fresh v out).distBuf beyond
      Company.default).t = v := by
  obtain ⟨rl, _, hd⟩ := decode_company szw hszw OrmBuf.fresh v [] beyond hv
  rw [List.append_nil] at hd
  simp only [encode_company]
  simp only [OrmBuf.fresh, List.nil_append] at hd ⊢
  simp [hd]

/-- Witness of C1: the company of test.cpp on an LP64 platform. -/
theorem company_round_trip_witness :
    (8 < 2 ^ 32 ∧ make_test_data_company.wf 8) ∧
    (decode (OrmBufCompany.init_buf 8) OrmBuf.fresh
      (encode (OrmBufCompany.init_buf 8) OrmBuf.fresh make_test_data_company []).distBuf
      (fun _ => 0) Company.default).t = make_test_data_company :=
  ⟨by decide,
   (company_round_trip 8 make_test_data_company [] (fun _ => 0) (by decide) (by decide)).2.2⟩

/-- C2. Round trip for the multi-level `Dat`: for every `Dat` value whose
members are values of their C++ types at every nesting level and whose texts
are shorter than 2^32 bytes, encoding with a fresh `OrmBufDat` and decoding
the produced bytes with a fresh `OrmBufDat` into a default-constructed `Dat`
succeeds and yields the value in every field at every level. -/
theorem dat_round_trip (szw : Nat) (d : Dat) (out : List Byte) (beyond : Nat → Byte)
    (hszw : szw < 2 ^ 32) (hd : d.wf szw) :
    (encode (OrmBufDat.init_buf szw) OrmBuf.fresh d out).ret = true ∧
    (decode (OrmBufDat.init_buf szw) OrmBuf.fresh
      (encode (OrmBufDat.init_buf szw) OrmBuf.fresh d out).distBuf beyond Dat.default).ret
      = true ∧
    (decode (OrmBufDat.init_buf szw) OrmBuf.fresh
      (encode (OrmBufDat.init_buf szw) OrmBuf.fresh d out).distBuf beyond Dat.default).t
      = d := by
  obtain ⟨rl, _, he⟩ := decode_dat szw hszw OrmBuf.fresh d [] beyond hd
  rw [List.append_nil] at he
  simp only [encode_dat]
  simp only [OrmBuf.fresh, List.nil_append] at he ⊢
  simp [he]

/-- Witness of C2: the value built by `make_test_data` on an LP64 platform. -/
theorem dat_round_trip_witness :
    (8 < 2 ^ 32 ∧ make_test_data.wf 8) ∧
    (decode (OrmBufDat.init_buf 8) OrmBuf.fresh
      (encode (OrmBufDat.init_buf 8) OrmBuf.fresh make_test_data []).distBuf
      (fun _ => 0) Dat.default).t = make_test_data :=
  ⟨by decide, (dat_round_trip 8 make_test_data [] (fun _ => 0) (by decide) (by decide)).2.2⟩

/-- C3. Order preservation of the collection codec, for any element type:
let `f` be a per-element registration function that in write mode appends
`enc x` for an element `x`, and whose read undoes its write on the elements
of `xs` (on memory holding `enc x`, applied to the default-constructed
element it gives back `x` and moves the cursor by exactly `|enc x|`).  Then
`reg_arr` in read mode, on memory holding the bytes `reg_arr` wrote for
`xs`, starting from an empty collection, yields exactly `xs`. -/
theorem reg_arr_order_preserved {E : Type} (szw : Nat) (d : E)
    (f : OrmBuf → E → OrmBuf × E) (enc : E → List Byte) (xs : List E) (ow ord : OrmBuf)
    (hszw : szw < 2 ^ 32) (hlen : xs.length < 256 ^ szw)
    (hw : ∀ o x, o.m_bEnc = true →
      (f o x).1.m_bEnc = true ∧ (f o x).1.m_distVec = o.m_distVec ++ enc x)
    (hr : ∀ o, ∀ x ∈ xs, o.m_bEnc = false → Holds o.m_inBuf (enc x) →
      (f o d).2 = x ∧ (f o d).1.m_bEnc = false ∧
        (f o d).1.m_inBuf = o.m_inBuf.add (enc x).length)
    (hwm : ow.m_bEnc = true) (hrm : ord.m_bEnc = false)
    (hmem : Holds ord.m_inBuf ((reg_arr szw d f ow xs).1.m_distVec.drop ow.m_distVec.length)) :
    (reg_arr szw d f ord []).2 = xs := by
  rw [reg_arr_dist szw d f enc hw xs ow hwm, List.drop_left, holds_append] at hmem
  obtain ⟨l1, _, e1⟩ := reg_ele_reads szw 0 hszw ord xs.length hlen hrm hmem.1
  simp only [reg_arr, List.length_nil, Nat.zero_mod, e1, advance_m_bEnc, hrm, Bool.not_false,
    if_true, List.nil_append]
  exact for_each_back d f enc xs hr _ (by simpa using hrm) (by simpa using hmem.2)

/-- Witness of C3: the collection `[1, 2, 3]` of `uint32_t`, registered
element by element with `reg_ele`, on an LP64 platform. -/
theorem reg_arr_order_preserved_witness :
    (reg_arr 8 0 (reg_ele 4)
      { m_bEnc := false,
        m_inBuf := { mem := mem_of (reg_arr 8 0 (reg_ele 4)
                        { OrmBuf.fresh with m_bEnc := true } [1, 2, 3]).1.m_distVec (fun _ => 0),
                     off := 0 },
        m_distVec := [], reads := [] } []).2 = [1, 2, 3] :=
  reg_arr_order_preserved 8 0 (reg_ele 4) (enc_num 4) [1, 2, 3]
    { OrmBuf.fresh with m_bEnc := true } _ (by decide) (by decide)
    (fun o x hm => by rw [reg_ele_writes 4 o x hm]; simp [hm])
    (fun o x hx hm hh => by
      have hx' : x < 256 ^ 4 := by
        simp only [List.mem_cons, List.mem_singleton, List.not_mem_nil, or_false] at hx
        rcases hx with h | h | h <;> subst h <;> decide
      rw [reg_ele_read 4 o x 0 (by decide) hx' hm hh]
      simp [hm])
    rfl rfl (by decide)

/-- C4 (amended). Decoding a truncated buffer: the engine has no bounds
check.  For every `Company` value (numeric members and element counts in
the range of their C++ types), every proper prefix of its encoding, cut at
any offset `k` before the end (`k = 0` included), and whatever the memory
behind the prefix holds, the reads `decode` performs through the cursor are
not confined to the prefix: after reads that all lie inside it comes a read
of at least one byte that touches an offset at or beyond the end of the
prefix.  Nothing is said of what the call does after that read. -/
theorem decode_truncated_reads_beyond (szw : Nat) (v : Company) (out : List Byte)
    (beyond : Nat → Byte) (k : Nat) (hszw : szw < 2 ^ 32) (hty : v.typed szw)
    (hk : k < (encode (OrmBufCompany.init_buf szw) OrmBuf.fresh v out).distBuf.length) :
    ∃ pre r post,
      (decode (OrmBufCompany.init_buf szw) OrmBuf.fresh
        ((encode (OrmBufCompany.init_buf szw) OrmBuf.fresh v out).distBuf.take k) beyond
        Company.default).self.reads = pre ++ r :: post ∧
      InBounds k pre ∧ r.2 ≠ 0 ∧ k < r.1 + r.2 := by
  rw [encode_company] at hk ⊢
  simp only [OrmBuf.fresh, List.nil_append] at hk ⊢
  have h := decode_company_cut_reads szw hszw v beyond k hty hk
  exact first_out_of_bounds k _ h

/-- Witness of C4 (amended): the encoding of the company of test.cpp cut
after 30 bytes, on an LP64 platform. -/
theorem decode_truncated_reads_beyond_witness :
    ∃ pre r post,
      (decode (OrmBufCompany.init_buf 8) OrmBuf.fresh
        ((encode (OrmBufCompany.init_buf 8) OrmBuf.fresh make_test_data_company []).distBuf.take
          30) (fun _ => 0) Company.default).self.reads = pre ++ r :: post ∧
      InBounds 30 pre ∧ r.2 ≠ 0 ∧ 30 < r.1 + r.2 :=
  decode_truncated_reads_beyond 8 make_test_data_company [] (fun _ => 0) 30 (by decide)
    (by decide) (by decide)

/-- Counterexample to C4 as stated: decoding the first two bytes of the
encoding of the company of test.cpp (LP64) performs a read at offsets at or
beyond the length of the prefix: its first read takes the four bytes at
offset 0, of which only two belong to the prefix. -/
theorem decode_truncated_counterexample :
    (decode (OrmBufCompany.init_buf 8) OrmBuf.fresh
      ((encode (OrmBufCompany.init_buf 8) OrmBuf.fresh make_test_data_company []).distBuf.take 2)
      (fun _ => 0) Company.default).self.reads.head? = some (0, 4) ∧
    ¬ InBounds 2 (decode (OrmBufCompany.init_buf 8) OrmBuf.fresh
      ((encode (OrmBufCompany.init_buf 8) OrmBuf.fresh make_test_data_company []).distBuf.take 2)
      (fun _ => 0) Company.default).self.reads := by
  decide

/-- C5 (amended). Scalar write record: in write mode, registering a numeric
value of a type of byte size `w` appends exactly the 4-byte little-endian
integer `w` followed by the `w` raw bytes of the value; registering a text
`s` shorter than 2^32 bytes appends exactly its byte count as a 4-byte
integer followed by the bytes of `s`; and for every text the length field
equals the byte count of the payload that follows it. -/
theorem scalar_write_record (w v : Nat) (s : List Byte) (o : OrmBuf)
    (hm : o.m_bEnc = true) (hw : w < 2 ^ 32) :
    ((reg_ele w o v).1.m_distVec = o.m_distVec ++ (le_bytes 4 w ++ le_bytes w v) ∧
      le_val (le_bytes 4 w) = w ∧ (le_bytes w v).length = w) ∧
    (s.length < 2 ^ 32 →
      (reg_ele_string o s).1.m_distVec = o.m_distVec ++ (le_bytes 4 s.length ++ s) ∧
      le_val (le_bytes 4 s.length) = s.length) ∧
    (∃ payload, payload.length < 2 ^ 32 ∧
      (reg_ele_string o s).1.m_distVec = o.m_distVec ++ (le_bytes 4 payload.length ++ payload)) := by
  refine ⟨⟨?_, ?_, le_bytes_length w v⟩, ?_, ?_⟩
  · rw [reg_ele_writes w o v hm, ← enc_num_of_lt w v hw]; rfl
  · exact le_val_le_bytes_of_lt 4 w (by simpa using hw)
  · intro hs
    refine ⟨?_, le_val_le_bytes_of_lt 4 s.length (by simpa using hs)⟩
    rw [reg_ele_string_writes o s hm, ← enc_str_of_lt s hs]; rfl
  · refine ⟨s.take (s.length % 2 ^ 32), ?_, ?_⟩
    · rw [List.length_take]
      exact lt_of_le_of_lt (Nat.min_le_left _ _) (Nat.mod_lt _ (by norm_num))
    · rw [reg_ele_string_writes o s hm]
      have : (s.take (s.length % 2 ^ 32)).length = s.length % 2 ^ 32 := by
        rw [List.length_take]; exact Nat.min_eq_left (Nat.mod_le _ _)
      rw [this]; rfl

/-- Witness of C5: a `uint32_t` and the text "nb_company" on a fresh engine
in write mode. -/
theorem scalar_write_record_witness :
    (reg_ele 4 { OrmBuf.fresh with m_bEnc := true } 1007).1.m_distVec
      = [4, 0, 0, 0, 239, 3, 0, 0] ∧
    (reg_ele_string { OrmBuf.fresh with m_bEnc := true } (str "nb_company")).1.m_distVec
      = [10, 0, 0, 0] ++ str "nb_company" :=
  ⟨(scalar_write_record 4 1007 (str "nb_company") { OrmBuf.fresh with m_bEnc := true }
      rfl (by decide)).1.1,
   ((scalar_write_record 4 1007 (str "nb_company") { OrmBuf.fresh with m_bEnc := true }
      rfl (by decide)).2.1 (by decide)).1⟩

/-- Counterexample to C5 as stated: for a text of exactly 2^32 bytes the
appended bytes are not "its 4-byte count followed by its bytes"; only a
length field 0 with no payload is written. -/
theorem scalar_write_text_counterexample :
    (reg_ele_string { OrmBuf.fresh with m_bEnc := true }
        (List.replicate (2 ^ 32) 0)).1.m_distVec = [0, 0, 0, 0] ∧
    ¬ ∃ hdr : List Byte, hdr.length = 4 ∧
        (reg_ele_string { OrmBuf.fresh with m_bEnc := true }
          (List.replicate (2 ^ 32) 0)).1.m_distVec = hdr ++ List.replicate (2 ^ 32) 0 := by
  have hs : (List.replicate (2 ^ 32) (0 : Byte)).length = 2 ^ 32 := List.length_replicate _ _
  generalize List.replicate (2 ^ 32) (0 : Byte) = s at hs ⊢
  have h := reg_ele_string_wraps { OrmBuf.fresh with m_bEnc := true } s rfl hs
  refine ⟨h, ?_⟩
  rintro ⟨hdr, hlen, heq⟩
  rw [h] at heq
  have h2 := congrArg List.length heq
  rw [List.length_append, List.length_append, hlen, hs] at h2
  have h3 : ({ OrmBuf.fresh with m_bEnc := true } : OrmBuf).m_distVec.length = 0 := rfl
  rw [h3] at h2
  simp only [List.length_cons, List.length_nil] at h2
  omega

/-- C6. Wire format well-formedness: for every `Company` value, on every
platform, the bytes `encode` produces on a fresh engine are, from the first
byte to the last with nothing left over, a concatenation of records made of
a 4-byte length `L` followed by exactly `L` payload bytes; the first record
is the one of the company name, so nothing (no magic number, no version)
precedes the data. -/
theorem encode_company_framed (szw : Nat) (v : Company) (out : List Byte) :
    ∃ ps : List (List Byte),
      (∀ p ∈ ps, p.length < 2 ^ 32) ∧
      (encode (OrmBufCompany.init_buf szw) OrmBuf.fresh v out).distBuf
        = frame (v.name.take (v.name.length % 2 ^ 32) :: ps) := by
  obtain ⟨ps, h1, h2⟩ := framed_enc_arr szw (enc_department szw) v.departments
    (framed_enc_department szw)
  refine ⟨ps, h1, ?_⟩
  rw [encode_company, ← List.singleton_append, frame_append, ← h2, ← enc_str_frame]
  rfl

/-- C7. Collection layout on write: for every collection `xs` and every
per-element function `f` that in write mode appends `enc x` for an element
`x`, the output after `reg_arr` is the output after registering the element
count as a scalar (the old output followed by the count record), followed
immediately by the bytes of the elements in iteration order; for an empty
collection it is the count record alone. -/
theorem reg_arr_write_layout {E : Type} (szw : Nat) (d : E) (f : OrmBuf → E → OrmBuf × E)
    (enc : E → List Byte) (xs : List E) (o : OrmBuf) (hm : o.m_bEnc = true)
    (hf : ∀ o x, o.m_bEnc = true →
      (f o x).1.m_bEnc = true ∧ (f o x).1.m_distVec = o.m_distVec ++ enc x) :
    (reg_arr szw d f o xs).1.m_distVec
      = (reg_ele szw o xs.length).1.m_distVec ++ (xs.map enc).flatten ∧
    (reg_ele szw o xs.length).1.m_distVec = o.m_distVec ++ enc_num szw xs.length ∧
    (reg_arr szw d f o []).1.m_distVec = (reg_ele szw o 0).1.m_distVec := by
  rw [reg_arr_dist szw d f enc hf xs o hm, reg_arr_dist szw d f enc hf [] o hm,
    reg_ele_writes szw o _ hm, reg_ele_writes szw o _ hm]
  simp

/-- Witness of C7: the two employees of test.cpp, registered by the inner
lambda of `OrmBufCompany::init_buf`, on an LP64 platform. -/
theorem reg_arr_write_layout_witness :
    (reg_arr 8 Employee.ele_tmp OrmBufCompany.reg_employee { OrmBuf.fresh with m_bEnc := true }
        [{ id := 1007, name := str "nb_employee", age := 35, salary := 1203982221 },
         { id := 1008, name := str "nb_employee2", age := 36, salary := 1203982234 }]).1.m_distVec
      = (reg_ele 8 { OrmBuf.fresh with m_bEnc := true } 2).1.m_distVec ++
        (enc_employee { id := 1007, name := str "nb_employee", age := 35, salary := 1203982221 }
          ++ (enc_employee
            { id := 1008, name := str "nb_employee2", age := 36, salary := 1203982234 } ++ [])) :=
  (reg_arr_write_layout 8 Employee.ele_tmp OrmBufCompany.reg_employee enc_employee
    [{ id := 1007, name := str "nb_employee", age := 35, salary := 1203982221 },
     { id := 1008, name := str "nb_employee2", age := 36, salary := 1203982234 }]
    { OrmBuf.fresh with m_bEnc := true } rfl
    (fun o x hm => by rw [reg_employee_writes o x hm]; simp [hm])).1

/-- C8 (amended). Collection header width: for every collection registered
in write mode, the header written before its elements is a Field Record
whose length field is `sizeof(size_t)` and whose payload is the element
count as a `size_t`, `4 + sizeof(size_t)` bytes in total. -/
theorem reg_arr_header {E : Type} (szw : Nat) (d : E) (f : OrmBuf → E → OrmBuf × E)
    (enc : E → List Byte) (xs : List E) (o : OrmBuf) (hm : o.m_bEnc = true)
    (hszw : szw < 2 ^ 32)
    (hf : ∀ o x, o.m_bEnc = true →
      (f o x).1.m_bEnc = true ∧ (f o x).1.m_distVec = o.m_distVec ++ enc x) :
    (reg_arr szw d f o xs).1.m_distVec
      = o.m_distVec ++ (le_bytes 4 szw ++ le_bytes szw xs.length) ++ (xs.map enc).flatten ∧
    le_val (le_bytes 4 szw) = szw ∧
    (le_bytes 4 szw ++ le_bytes szw xs.length).length = 4 + szw := by
  refine ⟨?_, le_val_le_bytes_of_lt 4 szw (by simpa using hszw), by simp [le_bytes_length]⟩
  rw [reg_arr_dist szw d f enc hf xs o hm, enc_num_of_lt szw _ hszw]
  simp

/-- Witness of C8 (amended): a collection of three `uint32_t` on an LP64
platform has a 12-byte header with length field 8. -/
theorem reg_arr_header_witness :
    (reg_arr 8 0 (reg_ele 4) { OrmBuf.fresh with m_bEnc := true } [1, 2, 3]).1.m_distVec
      = [] ++ (le_bytes 4 8 ++ le_bytes 8 3) ++
        (enc_num 4 1 ++ (enc_num 4 2 ++ (enc_num 4 3 ++ []))) :=
  (reg_arr_header 8 0 (reg_ele 4) (enc_num 4) [1, 2, 3] { OrmBuf.fresh with m_bEnc := true }
    rfl (by decide) (fun o x hm => by rw [reg_ele_writes 4 o x hm]; simp [hm])).1

/-- Counterexample to C8 as stated: on an LP64 platform the header of an
(empty) collection is 12 bytes long with length field 8, not the 8 bytes
`[4,0,0,0]` + 4-byte count the claim describes. -/
theorem reg_arr_header_counterexample :
    (reg_arr 8 0 (reg_ele 4) { OrmBuf.fresh with m_bEnc := true } []).1.m_distVec
      = [8, 0, 0, 0, 0, 0, 0, 0, 0, 0, 0, 0] ∧
    (reg_arr 8 0 (reg_ele 4) { OrmBuf.fresh with m_bEnc := true } []).1.m_distVec
      ≠ le_bytes 4 4 ++ le_bytes 4 0 := by
  decide

/-- C9. Encode propagates adapter failure: for every adapter and every
value, the flag `encode` returns is the flag the adapter's `init_buf`
returned (called on the engine switched to write mode). -/
theorem encode_ret_eq_init_buf {T : Type} (init_buf : OrmBuf → T → Bool × OrmBuf × T)
    (o : OrmBuf) (t : T) (out : List Byte) :
    (encode init_buf o t out).ret = (init_buf { o with m_bEnc := true } t).1 ∧
    ((encode init_buf o t out).ret = false ↔ (init_buf { o with m_bEnc := true } t).1 = false) :=
  ⟨rfl, Iff.rfl⟩

/-- C10 (amended). Output of a failed encode: for every adapter whose
`init_buf` appends bytes `bs` and then returns `false`, `encode` returns
`false` and the caller's output buffer is overwritten with the engine's
buffer, that is the bytes written before the failure (after whatever the
engine already held); its previous content `out` is discarded. -/
theorem encode_failure_output {T : Type} (init_buf : OrmBuf → T → Bool × OrmBuf × T)
    (o : OrmBuf) (t : T) (out bs : List Byte)
    (h : init_buf { o with m_bEnc := true } t = (false, ({ o with m_bEnc := true }).put bs, t)) :
    (encode init_buf o t out).ret = false ∧
    (encode init_buf o t out).distBuf = o.m_distVec ++ bs := by
  simp [encode, h]

/-- Witness of C10 (amended): the declining adapter on a fresh engine. -/
theorem encode_failure_output_witness :
    (encode declining_init_buf OrmBuf.fresh 7 [1, 2]).ret = false ∧
    (encode declining_init_buf OrmBuf.fresh 7 [1, 2]).distBuf = [] ++ enc_num 4 7 :=
  encode_failure_output declining_init_buf OrmBuf.fresh 7 [1, 2] (enc_num 4 7) (by
    simp only [declining_init_buf]
    rw [reg_ele_writes 4 _ 7 rfl])

/-- Counterexample to C10 as stated: the declining adapter registers one
field and returns `false`; `encode` reports the failure but the caller's
buffer, `[1, 2]` before the call, holds the partially written bytes after it. -/
theorem encode_failure_counterexample :
    (encode declining_init_buf OrmBuf.fresh 7 [1, 2]).ret = false ∧
    (encode declining_init_buf OrmBuf.fresh 7 [1, 2]).distBuf = [4, 0, 0, 0, 7, 0, 0, 0] ∧
    (encode declining_init_buf OrmBuf.fresh 7 [1, 2]).distBuf ≠ [1, 2] := by
  decide

/-! ## Further lemmas on the read log and the engine buffer -/

namespace nsOrmBuf

theorem tiles_within (rl : List (Nat × Nat)) (a b : Nat) (ht : Tiles rl a b) :
    a ≤ b ∧ ∀ r ∈ rl, a ≤ r.1 ∧ r.1 + r.2 ≤ b := by
  induction rl generalizing a with
  | nil => simp only [Tiles] at ht; subst ht; simp
  | cons r rest ih =>
    simp only [Tiles] at ht
    obtain ⟨h1, h2⟩ := ih (a + r.2) ht.2
    refine ⟨by omega, ?_⟩
    intro x hx
    rcases List.mem_cons.mp hx with h | h
    · subst h; omega
    · have := h2 x h; omega

end nsOrmBuf

theorem enc_company_length_pos (szw : Nat) (c : Company) : 0 < (enc_company szw c).length := by
  simp only [enc_company, List.length_append, enc_str_length]
  omega

namespace nsOrmBuf

end nsOrmBuf

namespace nsOrmBuf

end nsOrmBuf

/-! ## The hex dump -/

namespace nsOrmBuf

theorem hex_digit_mem (k : Nat) : hex_digit k ∈ hex_digits := by
  unfold hex_digit
  by_cases h : k < hex_digits.length
  · rw [List.getD_eq_getElem _ _ h]
    exact List.getElem_mem h
  · rw [List.getD_eq_default _ _ (by omega)]
    decide

theorem hex_digits_not_blank : ∀ c ∈ hex_digits, c ≠ ' ' ∧ c ≠ '\n' := by decide

theorem hex_digit_ne_nl (k : Nat) : hex_digit k ≠ '\n' :=
  (hex_digits_not_blank _ (hex_digit_mem k)).2

theorem hex_digit_ne_sp (k : Nat) : hex_digit k ≠ ' ' :=
  (hex_digits_not_blank _ (hex_digit_mem k)).1

theorem hex_val_hex_digit : ∀ k : Fin 16, hex_val (hex_digit k.val) = some k.val := by decide

theorem byte_of_digits (b : Byte) : (Fin.ofNat (16 * (b.val / 16) + b.val % 16) : Byte) = b := by
  apply Fin.ext
  simp only [Fin.ofNat]
  have := b.isLt
  omega

theorem dump_hex_loop_groups (n : Byte) (i : Nat) (bs : List Byte) :
    dump_hex_loop n i bs = (hex_groups n i bs).flatten := by
  induction bs generalizing i with
  | nil => rfl
  | cons b rest ih =>
    simp only [dump_hex_loop, hex_groups, hex_group, List.flatten_cons, ih, List.append_assoc]

theorem dump_hex_loop_zero (i : Nat) (bs : List Byte) :
    dump_hex_loop 0 i bs
      = (bs.map (fun b => [hex_digit (b.val / 16), hex_digit (b.val % 16), ' '])).flatten := by
  induction bs generalizing i with
  | nil => rfl
  | cons b rest ih =>
    simp only [dump_hex_loop, List.map_cons, List.flatten_cons, ih]
    simp

theorem strip_cons_keep (c : Char) (l : List Char) (h1 : c ≠ ' ') (h2 : c ≠ '\n') :
    strip_blanks (c :: l) = c :: strip_blanks l := by
  simp [strip_blanks, List.filter_cons, h1, h2]

theorem strip_cons_sp (l : List Char) : strip_blanks (' ' :: l) = strip_blanks l := by
  simp [strip_blanks, List.filter_cons]

theorem strip_cons_nl (l : List Char) : strip_blanks ('\n' :: l) = strip_blanks l := by
  simp [strip_blanks, List.filter_cons]

theorem strip_dump_hex_loop (n : Byte) (i : Nat) (bs : List Byte) :
    strip_blanks (dump_hex_loop n i bs)
      = (bs.map (fun b => [hex_digit (b.val / 16), hex_digit (b.val % 16)])).flatten := by
  induction bs generalizing i with
  | nil => rfl
  | cons b rest ih =>
    simp only [dump_hex_loop, List.map_cons, List.flatten_cons, List.cons_append,
      List.nil_append]
    rw [strip_cons_keep _ _ (hex_digit_ne_sp _) (hex_digit_ne_nl _),
      strip_cons_keep _ _ (hex_digit_ne_sp _) (hex_digit_ne_nl _), strip_cons_sp]
    split
    · rw [List.cons_append, List.nil_append, strip_cons_nl, ih]
    · rw [List.nil_append, ih]

theorem unhex_cons (a b : Char) (rest : List Char) (x y : Nat) (bs : List Byte)
    (ha : hex_val a = some x) (hb : hex_val b = some y) (hr : unhex rest = some bs) :
    unhex (a :: b :: rest) = some (Fin.ofNat (16 * x + y) :: bs) := by
  simp [unhex, ha, hb, hr]

theorem unhex_digits (bs : List Byte) :
    unhex (bs.map (fun b => [hex_digit (b.val / 16), hex_digit (b.val % 16)])).flatten
      = some bs := by
  induction bs with
  | nil => rfl
  | cons b rest ih =>
    have hb := b.isLt
    have h1 := hex_val_hex_digit ⟨b.val / 16, by omega⟩
    have h2 := hex_val_hex_digit ⟨b.val % 16, by omega⟩
    simp only at h1 h2
    simp only [List.map_cons, List.flatten_cons, List.cons_append, List.nil_append]
    rw [unhex_cons _ _ _ _ _ _ h1 h2 ih, byte_of_digits]

theorem count_nl_dump_hex_loop (n : Byte) (i : Nat) (bs : List Byte) :
    (dump_hex_loop n i bs).count '\n' = (i + bs.length) / n.val - i / n.val := by
  induction bs generalizing i with
  | nil => simp [dump_hex_loop]
  | cons b rest ih =>
    have h2 := hex_digit_ne_nl (b.val / 16)
    have h4 := hex_digit_ne_nl (b.val % 16)
    have hmono : (i + 1) / n.val ≤ (i + 1 + rest.length) / n.val :=
      Nat.div_le_div_right (by omega)
    have hsucc := Nat.succ_div i n.val
    simp only [dump_hex_loop, List.count_append, ih (i + 1), List.length_cons]
    rw [show i + (rest.length + 1) = i + 1 + rest.length by omega]
    have hc : List.count '\n' [hex_digit (b.val / 16), hex_digit (b.val % 16), ' '] = 0 := by
      rw [List.count_eq_zero]
      intro hmem
      simp only [List.mem_cons, List.mem_singleton, List.not_mem_nil, or_false] at hmem
      rcases hmem with h | h | h
      · exact h2 h.symm
      · exact h4 h.symm
      · exact absurd h (by decide)
    rw [hc]
    by_cases hn : 0 < n.val ∧ (i + 1) % n.val = 0
    · have hd : n.val ∣ i + 1 := Nat.dvd_of_mod_eq_zero hn.2
      simp only [hn, and_self, if_true, hd, Nat.succ_eq_add_one] at hsucc ⊢
      simp only [List.count_singleton_self]
      omega
    · have hd : ¬ n.val ∣ i + 1 := by
        intro hd
        apply hn
        refine ⟨?_, Nat.mod_eq_zero_of_dvd hd⟩
        rcases Nat.eq_zero_or_pos n.val with h0 | h0
        · rw [h0] at hd
          have := Nat.eq_zero_of_zero_dvd hd
          omega
        · exact h0
      simp only [hn, if_false, hd, Nat.succ_eq_add_one] at hsucc ⊢
      simp only [List.count_nil]
      omega

end nsOrmBuf

/-! ## The read log follows the records written -/

namespace nsOrmBuf

theorem frame_cons (p : List Byte) (ps : List (List Byte)) :
    frame (p :: ps) = le_bytes 4 p.length ++ p ++ frame ps := by
  simp [frame]

theorem frame_nil : frame [] = [] := rfl

theorem ranges_append (a b : List (List Byte)) (off : Nat) :
    ranges (a ++ b) off = ranges a off ++ ranges b (off + (frame a).length) := by
  induction a generalizing off with
  | nil => simp [ranges, frame_nil]
  | cons p ps ih =>
    have h := ih (off + 4 + p.length)
    simp only [List.cons_append, ranges, frame_cons, List.length_append, le_bytes_length,
      List.append_eq, h]
    simp [Nat.add_assoc]

theorem rl_reg_ele (w d : Nat) (hw : w < 2 ^ 32) :
    ReadsLog (reg_ele w) (fun v => [le_bytes w v]) (fun v => v < 256 ^ w) d := by
  intro o v hv hm hh
  have hf : frame [le_bytes w v] = enc_num w v := by
    rw [enc_num_of_lt w v hw]
    simp [frame, le_bytes_length]
  rw [hf] at hh ⊢
  rw [reg_ele_read w o v d hw hv hm hh]
  simp [ranges, le_bytes_length]

theorem rl_reg_ele_string (d : List Byte) :
    ReadsLog reg_ele_string (fun s => [s]) (fun s => s.length < 2 ^ 32) d := by
  intro o s hs hm hh
  have hf : frame [s] = enc_str s := by
    rw [enc_str_of_lt s hs]
    simp [frame]
  rw [hf] at hh ⊢
  rw [reg_ele_string_read o s d hs hm hh]
  simp [ranges]

theorem rl_seq {A B : Type} (f : OrmBuf → A → OrmBuf × A) (g : OrmBuf → B → OrmBuf × B)
    (rf : A → List (List Byte)) (rg : B → List (List Byte)) (okf : A → Prop) (okg : B → Prop)
    (df : A) (dg : B) (hf : ReadsLog f rf okf df) (hg : ReadsLog g rg okg dg) :
    ReadsLog (seq f g) (fun ab => rf ab.1 ++ rg ab.2) (fun ab => okf ab.1 ∧ okg ab.2)
      (df, dg) := by
  intro o x hok hm hh
  simp only [frame_append, holds_append] at hh
  have e1 := hf o x.1 hok.1 hm hh.1
  have e2 := hg (o.advance (frame (rf x.1)).length (ranges (rf x.1) o.m_inBuf.off)) x.2 hok.2
    (by simpa using hm) (by simpa using hh.2)
  simp only [seq, e1, e2, advance_advance, frame_append, List.length_append, ranges_append,
    advance_m_inBuf, add_off]

theorem rl_map {A B : Type} (f : OrmBuf → A → OrmBuf × A) (g : OrmBuf → B → OrmBuf × B)
    (p : A → B) (q : B → A) (recs : B → List (List Byte)) (ok : B → Prop) (d : A)
    (hg : ReadsLog g recs ok (p d))
    (h : ∀ s a, f s a = ((g s (p a)).1, q (g s (p a)).2)) (hqp : ∀ x, q (p x) = x) :
    ReadsLog f (fun x => recs (p x)) (fun x => ok (p x)) d := by
  intro o x hok hm hh
  rw [h, hg o (p x) hok hm hh, hqp]

theorem rl_for_each {E : Type} (f : OrmBuf → E → OrmBuf × E) (recs : E → List (List Byte))
    (ok : E → Prop) (d : E) (hf : ReadsLog f recs ok d) (xs : List E) (o : OrmBuf)
    (hok : ∀ x ∈ xs, ok x) (hm : o.m_bEnc = false)
    (hh : Holds o.m_inBuf (frame (xs.map recs).flatten)) :
    for_each f o (List.replicate xs.length d) =
      (o.advance (frame (xs.map recs).flatten).length
        (ranges (xs.map recs).flatten o.m_inBuf.off), xs) := by
  induction xs generalizing o with
  | nil => simp [for_each, frame_nil, ranges, advance_zero]
  | cons x rest ih =>
    simp only [List.map_cons, List.flatten_cons, frame_append, holds_append] at hh ⊢
    have e1 := hf o x (hok x (by simp)) hm hh.1
    have e2 := ih (o.advance (frame (recs x)).length (ranges (recs x) o.m_inBuf.off))
      (fun y hy => hok y (by simp [hy])) (by simpa using hm) (by simpa using hh.2)
    simp only [List.length_cons, List.replicate_succ, for_each, e1, e2, advance_advance,
      List.length_append, ranges_append, advance_m_inBuf, add_off]

theorem rl_reg_arr {E : Type} (szw : Nat) (d : E) (f : OrmBuf → E → OrmBuf × E)
    (recs : E → List (List Byte)) (ok : E → Prop) (hszw : szw < 2 ^ 32)
    (hf : ReadsLog f recs ok d) :
    ReadsLog (reg_arr szw d f)
      (fun xs => [le_bytes szw xs.length] ++ (xs.map recs).flatten)
      (fun xs => xs.length < 256 ^ szw ∧ ∀ x ∈ xs, ok x) [] := by
  intro o xs hok hm hh
  simp only [frame_append, holds_append] at hh
  have e1 := rl_reg_ele szw 0 hszw o xs.length hok.1 hm hh.1
  have e2 := rl_for_each f recs ok d hf xs
    (o.advance (frame [le_bytes szw xs.length]).length
      (ranges [le_bytes szw xs.length] o.m_inBuf.off))
    hok.2 (by simpa using hm) (by simpa using hh.2)
  simp only [reg_arr, List.length_nil, Nat.zero_mod, e1, advance_m_bEnc, hm, Bool.not_false,
    if_true, List.nil_append, e2, advance_advance, frame_append, List.length_append,
    ranges_append, advance_m_inBuf, add_off]

end nsOrmBuf

theorem rl_reg_employee :
    ReadsLog OrmBufCompany.reg_employee recs_employee Employee.wf Employee.ele_tmp := by
  have key := rl_map OrmBufCompany.reg_employee
    (seq (reg_ele 4) (seq reg_ele_string (seq (reg_ele 1) (reg_ele 4))))
    (fun e => (e.id, e.name, e.age, e.salary))
    (fun t => { id := t.1, name := t.2.1, age := t.2.2.1, salary := t.2.2.2 })
    _ _ Employee.ele_tmp
    (rl_seq _ _ _ _ _ _ _ _ (rl_reg_ele 4 0 (by norm_num))
      (rl_seq _ _ _ _ _ _ _ _ (rl_reg_ele_string [])
        (rl_seq _ _ _ _ _ _ _ _ (rl_reg_ele 1 0 (by norm_num)) (rl_reg_ele 4 0 (by norm_num)))))
    (fun _ _ => rfl) (fun _ => rfl)
  intro o e hwf hm hh
  exact key o e ⟨hwf.1, hwf.2.1, hwf.2.2.1, hwf.2.2.2⟩ hm hh

theorem rl_reg_department (szw : Nat) (hszw : szw < 2 ^ 32) :
    ReadsLog (OrmBufCompany.reg_department szw) (recs_department szw) (Department.wf szw)
      Department.ele_tmp := by
  have key := rl_map (OrmBufCompany.reg_department szw)
    (seq (reg_ele 4) (seq reg_ele_string
      (reg_arr szw Employee.ele_tmp OrmBufCompany.reg_employee)))
    (fun d => (d.id, d.name, d.employees))
    (fun t => { id := t.1, name := t.2.1, employees := t.2.2 })
    _ _ Department.ele_tmp
    (rl_seq _ _ _ _ _ _ _ _ (rl_reg_ele 4 0 (by norm_num))
      (rl_seq _ _ _ _ _ _ _ _ (rl_reg_ele_string [])
        (rl_reg_arr szw _ _ _ _ hszw rl_reg_employee)))
    (fun _ _ => rfl) (fun _ => rfl)
  intro o d hwf hm hh
  exact key o d ⟨hwf.1, hwf.2.1, hwf.2.2⟩ hm hh

theorem rl_init_buf_company (szw : Nat) (hszw : szw < 2 ^ 32) :
    ReadsLog (fun o c => (OrmBufCompany.init_buf szw o c).2) (recs_company szw)
      (Company.wf szw) Company.default := by
  have key := rl_map (fun o c => (OrmBufCompany.init_buf szw o c).2)
    (seq reg_ele_string (reg_arr szw Department.ele_tmp (OrmBufCompany.reg_department szw)))
    (fun c => (c.name, c.departments))
    (fun t => { name := t.1, departments := t.2 })
    _ _ Company.default
    (rl_seq _ _ _ _ _ _ _ _ (rl_reg_ele_string [])
      (rl_reg_arr szw _ _ _ _ hszw (rl_reg_department szw hszw)))
    (fun _ _ => rfl) (fun _ => rfl)
  intro o c hwf hm hh
  exact key o c ⟨hwf.1, hwf.2⟩ hm hh

namespace nsOrmBuf

theorem tiles_ranges (ps : List (List Byte)) (off : Nat) :
    Tiles (ranges ps off) off (off + (frame ps).length) := by
  induction ps generalizing off with
  | nil => simp [ranges, Tiles, frame_nil]
  | cons p rest ih =>
    have h := ih (off + 4 + p.length)
    simp only [ranges, Tiles, frame_cons, List.length_append, le_bytes_length, true_and]
    have e : off + (4 + p.length + (frame rest).length)
        = off + 4 + p.length + (frame rest).length := by omega
    rw [e]
    exact h

theorem enc_num_eq_frame (w v : Nat) (hw : w < 2 ^ 32) : enc_num w v = frame [le_bytes w v] := by
  rw [enc_num_of_lt w v hw]
  simp [frame, le_bytes_length]

theorem enc_str_eq_frame (s : List Byte) (hs : s.length < 2 ^ 32) : enc_str s = frame [s] := by
  rw [enc_str_of_lt s hs]
  simp [frame]

theorem flatten_eq_frame {E : Type} (enc : E → List Byte) (recs : E → List (List Byte))
    (xs : List E) (h : ∀ x ∈ xs, enc x = frame (recs x)) :
    (xs.map enc).flatten = frame (xs.map recs).flatten := by
  induction xs with
  | nil => rfl
  | cons x rest ih =>
    simp only [List.map_cons, List.flatten_cons, frame_append]
    rw [h x (by simp), ih (fun y hy => h y (by simp [hy]))]

theorem enc_arr_eq_frame {E : Type} (szw : Nat) (enc : E → List Byte)
    (recs : E → List (List Byte)) (xs : List E) (hszw : szw < 2 ^ 32)
    (h : ∀ x ∈ xs, enc x = frame (recs x)) :
    enc_arr szw enc xs = frame ([le_bytes szw xs.length] ++ (xs.map recs).flatten) := by
  rw [enc_arr, frame_append, enc_num_eq_frame szw _ hszw, flatten_eq_frame enc recs xs h]

end nsOrmBuf

theorem enc_employee_eq_frame (e : Employee) (h : e.wf) :
    enc_employee e = frame (recs_employee e) := by
  rw [enc_employee, enc_num_eq_frame 4 _ (by norm_num), enc_str_eq_frame _ h.2.1,
    enc_num_eq_frame 1 _ (by norm_num), enc_num_eq_frame 4 _ (by norm_num),
    ← frame_append, ← frame_append, ← frame_append]
  rfl

theorem enc_department_eq_frame (szw : Nat) (hszw : szw < 2 ^ 32) (d : Department)
    (h : d.wf szw) : enc_department szw d = frame (recs_department szw d) := by
  rw [enc_department, enc_num_eq_frame 4 _ (by norm_num), enc_str_eq_frame _ h.2.1,
    enc_arr_eq_frame szw enc_employee recs_employee _ hszw
      (fun e he => enc_employee_eq_frame e (h.2.2.2 e he)),
    ← frame_append, ← frame_append]
  rfl

theorem enc_company_eq_frame (szw : Nat) (hszw : szw < 2 ^ 32) (c : Company)
    (h : c.wf szw) : enc_company szw c = frame (recs_company szw c) := by
  rw [enc_company, enc_str_eq_frame _ h.1,
    enc_arr_eq_frame szw (enc_department szw) (recs_department szw) _ hszw
      (fun d hd => enc_department_eq_frame szw hszw d (h.2.2 d hd)),
    ← frame_append]
  rfl

theorem decode_company_log (szw : Nat) (hszw : szw < 2 ^ 32) (v : Company)
    (beyond : Nat → Byte) (hwf : v.wf szw) :
    (decode (OrmBufCompany.init_buf szw) OrmBuf.fresh (enc_company szw v) beyond
      Company.default).self.reads = ranges (recs_company szw v) 0 ∧
    (decode (OrmBufCompany.init_buf szw) OrmBuf.fresh (enc_company szw v) beyond
      Company.default).self.m_inBuf.off = (enc_company szw v).length := by
  have hh := holds_mem_of (enc_company szw v) [] beyond
  rw [List.append_nil] at hh
  have hf := enc_company_eq_frame szw hszw v hwf
  have key := rl_init_buf_company szw hszw
    { m_bEnc := false, m_inBuf := { mem := mem_of (enc_company szw v) beyond, off := 0 },
      m_distVec := [], reads := [] } v hwf rfl (by rw [← hf]; exact hh)
  simp only at key
  simp only [decode, OrmBuf.fresh, key, advance_reads, advance_m_inBuf, add_off,
    List.nil_append, Nat.zero_add, true_and]
  rw [hf]

/-- C11 (code evaluated at the failing input). Two `encode` calls in a row
on one `OrmBufCompany`: the engine's buffer is never cleared, so the second
call returns the bytes of the first call followed by the encoding of its own
argument, not the bytes a fresh instance returns. -/
theorem encode_twice_accumulates (szw : Nat) (v : Company) (out1 out2 : List Byte) :
    (encode (OrmBufCompany.init_buf szw)
        (encode (OrmBufCompany.init_buf szw) OrmBuf.fresh v out1).self v out2).distBuf
      = (encode (OrmBufCompany.init_buf szw) OrmBuf.fresh v out1).distBuf
        ++ (encode (OrmBufCompany.init_buf szw) OrmBuf.fresh v out1).distBuf ∧
    (encode (OrmBufCompany.init_buf szw)
        (encode (OrmBufCompany.init_buf szw) OrmBuf.fresh v out1).self v out2).distBuf
      ≠ (encode (OrmBufCompany.init_buf szw) OrmBuf.fresh v out2).distBuf := by
  simp only [encode_company, OrmBuf.fresh, List.nil_append, put_m_distVec]
  refine ⟨trivial, ?_⟩
  intro h
  have h2 := congrArg List.length h
  have h3 := enc_company_length_pos szw v
  rw [List.length_append] at h2
  omega

/-- C13 (amended). Hex dump format without line breaks: for every byte
sequence `b`, `dump_hex(b, 0)` is exactly, for each byte in order, its two
lowercase hexadecimal digits followed by one space (the last group too, so
a non-empty dump ends with a space); it contains no line break, and the
empty sequence gives the empty text. -/
theorem dump_hex_no_breaks (b : List Byte) :
    dump_hex b 0
      = (b.map (fun x => [hex_digit (x.val / 16), hex_digit (x.val % 16), ' '])).flatten ∧
    (∀ x : Byte, hex_digit (x.val / 16) ∈ hex_digits ∧ hex_digit (x.val % 16) ∈ hex_digits ∧
      hex_val (hex_digit (x.val / 16)) = some (x.val / 16) ∧
      hex_val (hex_digit (x.val % 16)) = some (x.val % 16)) ∧
    (dump_hex b 0).count '\n' = 0 ∧
    dump_hex [] 0 = [] := by
  refine ⟨dump_hex_loop_zero 0 b, ?_, ?_, rfl⟩
  · intro x
    have hx := x.isLt
    exact ⟨hex_digit_mem _, hex_digit_mem _, hex_val_hex_digit ⟨x.val / 16, by omega⟩,
      hex_val_hex_digit ⟨x.val % 16, by omega⟩⟩
  · rw [dump_hex, count_nl_dump_hex_loop]
    simp

/-- Counterexample to C13 as stated: the dump of the two bytes `ab 01` is
the six characters `ab 01 ` with a space after the last group, not the
groups separated by single spaces. -/
theorem dump_hex_no_breaks_counterexample :
    dump_hex [0xab, 0x01] 0 = ['a', 'b', ' ', '0', '1', ' '] ∧
    dump_hex [0xab, 0x01] 0 ≠ ['a', 'b', ' ', '0', '1'] := by
  decide

/-- C14. Hex dump round trip: for every byte sequence `b` and every line
width `n` in 0..255, the characters of `dump_hex(b, n)` other than spaces
and line breaks are exactly `2 * |b|` lowercase hexadecimal digits, and read
two at a time as bytes they give back `b`. -/
theorem dump_hex_round_trip (b : List Byte) (n : Byte) :
    unhex (strip_blanks (dump_hex b n)) = some b ∧
    (strip_blanks (dump_hex b n)).length = 2 * b.length ∧
    ∀ c ∈ strip_blanks (dump_hex b n), c ∈ hex_digits := by
  rw [dump_hex, strip_dump_hex_loop]
  refine ⟨unhex_digits b, ?_, ?_⟩
  · induction b with
    | nil => rfl
    | cons x rest ih => simp only [List.map_cons, List.flatten_cons, List.length_append, ih,
        List.length_cons, List.length_nil]; omega
  · intro c hc
    simp only [List.mem_flatten, List.mem_map] at hc
    obtain ⟨l, ⟨x, _, rfl⟩, hl⟩ := hc
    simp only [List.mem_cons, List.mem_singleton, List.not_mem_nil, or_false] at hl
    rcases hl with h | h <;> subst h <;> exact hex_digit_mem _

/-- C15. Hex dump line breaks: for every byte sequence `b` and line width
`n` (a `uint8_t`), `dump_hex(b, n)` is the concatenation of its groups, the
text of the group with 1-based index `i` being followed by a line break
exactly when `n > 0` and `i` is a multiple of `n`; the number of line breaks
is `floor(|b| / n)` for `n ≥ 1`, and with `n = 0` there is none. -/
theorem dump_hex_line_breaks (b : List Byte) (n : Byte) :
    dump_hex b n = (hex_groups n 0 b).flatten ∧
    (∀ i x, hex_group n i x
      = [hex_digit (x.val / 16), hex_digit (x.val % 16), ' ']
        ++ (if 0 < n.val ∧ i % n.val = 0 then ['\n'] else [])) ∧
    (dump_hex b n).count '\n' = b.length / n.val ∧
    (dump_hex b 0).count '\n' = 0 := by
  refine ⟨dump_hex_loop_groups n 0 b, fun _ _ => rfl, ?_, ?_⟩
  · rw [dump_hex, count_nl_dump_hex_loop]
    simp
  · rw [dump_hex, count_nl_dump_hex_loop]
    simp

/-- C16 (amended). Numeric scalar read: for every numeric type of byte size
`w`, registering a value in read mode assigns it the `w` bytes that follow
the length field, whatever the length field `L` says, and moves the cursor
on by `4 + L`. -/
theorem reg_ele_read_numeric (w : Nat) (o : OrmBuf) (d : Nat) (hm : o.m_bEnc = false) :
    (reg_ele w o d).2 = le_val ((o.m_inBuf.add 4).load w) ∧
    (reg_ele w o d).1.m_inBuf.off = o.m_inBuf.off + (4 + le_val (o.m_inBuf.load 4)) ∧
    (reg_ele w o d).1.reads = o.reads ++ [(o.m_inBuf.off, 4), (o.m_inBuf.off + 4, w)] := by
  simp [reg_ele, hm, do_decode_num, Ptr.add, Nat.add_assoc]

/-- Witness of C16 (amended): a `uint32_t` read from a record whose length
field says 1; four payload bytes make the value, the cursor moves by 5. -/
theorem reg_ele_read_numeric_witness :
    (reg_ele 4 { m_bEnc := false,
                 m_inBuf := { mem := mem_of [1, 0, 0, 0, 7, 2, 0, 0] (fun _ => 0), off := 0 },
                 m_distVec := [], reads := [] } 0).2
      = le_val (Ptr.load (Ptr.add { mem := mem_of [1, 0, 0, 0, 7, 2, 0, 0] (fun _ => 0),
                                    off := 0 } 4) 4) :=
  (reg_ele_read_numeric 4 _ 0 rfl).1

/-- Counterexample to C16 as stated: two inputs whose next record has length
field 1 and the same first payload byte `7`; they differ in the second
payload byte only, and the decoded `uint32_t` values differ (7 and 519). -/
theorem reg_ele_read_numeric_counterexample :
    (reg_ele 4 { m_bEnc := false,
                 m_inBuf := { mem := mem_of [1, 0, 0, 0, 7, 0, 0, 0] (fun _ => 0), off := 0 },
                 m_distVec := [], reads := [] } 0).2 = 7 ∧
    (reg_ele 4 { m_bEnc := false,
                 m_inBuf := { mem := mem_of [1, 0, 0, 0, 7, 2, 0, 0] (fun _ => 0), off := 0 },
                 m_distVec := [], reads := [] } 0).2 = 519 ∧
    (reg_ele 4 { m_bEnc := false,
                 m_inBuf := { mem := mem_of [1, 0, 0, 0, 7, 2, 0, 0] (fun _ => 0), off := 0 },
                 m_distVec := [], reads := [] } 0).1.m_inBuf.off = 5 := by
  decide

/-- C17. In-bounds decoding of valid input: for every `Company` value with
texts shorter than 2^32 bytes, decoding `encode(v)` with a fresh engine into
a default-constructed `Company`: every read through the cursor lies inside
the buffer; the bytes written are the records of the write-side field
operations in order and the read log goes through exactly these records, in
the same order, each length field followed by its payload; the reads are
laid end to end from offset 0 to `|encode(v)|` (every byte read, none
twice), where the cursor ends. -/
theorem decode_in_bounds (szw : Nat) (v : Company) (out : List Byte) (beyond : Nat → Byte)
    (hszw : szw < 2 ^ 32) (hv : v.wf szw) :
    (∀ r ∈ (decode (OrmBufCompany.init_buf szw) OrmBuf.fresh
        (encode (OrmBufCompany.init_buf szw) OrmBuf.fresh v out).distBuf beyond
        Company.default).self.reads,
      r.1 + r.2 ≤ (encode (OrmBufCompany.init_buf szw) OrmBuf.fresh v out).distBuf.length) ∧
    (encode (OrmBufCompany.init_buf szw) OrmBuf.fresh v out).distBuf
      = frame (recs_company szw v) ∧
    (decode (OrmBufCompany.init_buf szw) OrmBuf.fresh
        (encode (OrmBufCompany.init_buf szw) OrmBuf.fresh v out).distBuf beyond
        Company.default).self.reads = ranges (recs_company szw v) 0 ∧
    Tiles (decode (OrmBufCompany.init_buf szw) OrmBuf.fresh
        (encode (OrmBufCompany.init_buf szw) OrmBuf.fresh v out).distBuf beyond
        Company.default).self.reads 0
      (encode (OrmBufCompany.init_buf szw) OrmBuf.fresh v out).distBuf.length ∧
    (decode (OrmBufCompany.init_buf szw) OrmBuf.fresh
        (encode (OrmBufCompany.init_buf szw) OrmBuf.fresh v out).distBuf beyond
        Company.default).self.m_inBuf.off
      = (encode (OrmBufCompany.init_buf szw) OrmBuf.fresh v out).distBuf.length := by
  obtain ⟨h1, h2⟩ := decode_company_log szw hszw v beyond hv
  have hf := enc_company_eq_frame szw hszw v hv
  have ht := tiles_ranges (recs_company szw v) 0
  rw [Nat.zero_add, ← hf] at ht
  simp only [encode_company, OrmBuf.fresh, List.nil_append]
  simp only [OrmBuf.fresh] at h1 h2
  rw [h1, h2]
  exact ⟨fun r hr => ((tiles_within _ 0 _ ht).2 r hr).2, hf, rfl, ht, rfl⟩

/-- Witness of C17: the company of test.cpp on an LP64 platform; the cursor
ends at the end of the buffer. -/
theorem decode_in_bounds_witness :
    (decode (OrmBufCompany.init_buf 8) OrmBuf.fresh
        (encode (OrmBufCompany.init_buf 8) OrmBuf.fresh make_test_data_company []).distBuf
        (fun _ => 0) Company.default).self.m_inBuf.off
      = (encode (OrmBufCompany.init_buf 8) OrmBuf.fresh make_test_data_company []).distBuf.length :=
  (decode_in_bounds 8 make_test_data_company [] (fun _ => 0) (by decide) (by decide)).2.2.2.2

/-- C18. Trailing bytes are ignored: for every `Company` value with texts
shorter than 2^32 bytes and every byte sequence `t`, decoding
`encode(v) ++ t` with a fresh engine into a default-constructed `Company`
succeeds and yields `v`, the same value as decoding `encode(v)` alone, and
every read ends at or before offset `|encode(v)|`, so no byte of `t` is read. -/
theorem decode_ignores_trailing (szw : Nat) (v : Company) (out t : List Byte)
    (beyond : Nat → Byte) (hszw : szw < 2 ^ 32) (hv : v.wf szw) :
    (decode (OrmBufCompany.init_buf szw) OrmBuf.fresh
      ((encode (OrmBufCompany.init_buf szw) OrmBuf.fresh v out).distBuf ++ t) beyond
      Company.default).ret = true ∧
    (decode (OrmBufCompany.init_buf szw) OrmBuf.fresh
      ((encode (OrmBufCompany.init_buf szw) OrmBuf.fresh v out).distBuf ++ t) beyond
      Company.default).t = v ∧
    (decode (OrmBufCompany.init_buf szw) OrmBuf.fresh
      ((encode (OrmBufCompany.init_buf szw) OrmBuf.fresh v out).distBuf ++ t) beyond
      Company.default).t
      = (decode (OrmBufCompany.init_buf szw) OrmBuf.fresh
          (encode (OrmBufCompany.init_buf szw) OrmBuf.fresh v out).distBuf beyond
          Company.default).t ∧
    ∀ r ∈ (decode (OrmBufCompany.init_buf szw) OrmBuf.fresh
      ((encode (OrmBufCompany.init_buf szw) OrmBuf.fresh v out).distBuf ++ t) beyond
      Company.default).self.reads,
      r.1 + r.2 ≤ (encode (OrmBufCompany.init_buf szw) OrmBuf.fresh v out).distBuf.length := by
  obtain ⟨rl, ht, hd⟩ := decode_company szw hszw OrmBuf.fresh v t beyond hv
  obtain ⟨rl0, _, hd0⟩ := decode_company szw hszw OrmBuf.fresh v [] beyond hv
  rw [List.append_nil] at hd0
  simp only [encode_company]
  simp only [OrmBuf.fresh, List.nil_append] at hd hd0 ⊢
  rw [hd, hd0]
  refine ⟨rfl, rfl, rfl, ?_⟩
  intro r hr
  exact ((tiles_within rl 0 _ ht).2 r hr).2

/-- Witness of C18: the company of test.cpp followed by three stray bytes,
on an LP64 platform. -/
theorem decode_ignores_trailing_witness :
    (decode (OrmBufCompany.init_buf 8) OrmBuf.fresh
      ((encode (OrmBufCompany.init_buf 8) OrmBuf.fresh make_test_data_company []).distBuf
        ++ [1, 2, 3]) (fun _ => 0) Company.default).t = make_test_data_company :=
  (decode_ignores_trailing 8 make_test_data_company [] [1, 2, 3] (fun _ => 0) (by decide)
    (by decide)).2.1

/-- C19. Encode does not modify the value: for every `Company` value, every
engine state and every platform, the value after `encode` equals the value
before in every field; in particular each collection has the same elements
in the same order (write mode appends no element). -/
theorem encode_keeps_value (szw : Nat) (o : OrmBuf) (v : Company) (out : List Byte) :
    (encode (OrmBufCompany.init_buf szw) o v out).t = v ∧
    (encode (OrmBufCompany.init_buf szw) o v out).t.departments = v.departments ∧
    (encode (OrmBufCompany.init_buf szw) o v out).t.departments.map Department.employees
      = v.departments.map Department.employees := by
  rw [encode_company]
  exact ⟨rfl, rfl, rfl⟩
